import Mathlib

/-!
# MultiValDenseBin (src/io/multi_val_dense_bin.hpp)

A shallow embedding of the CSR multi-value bin store and a verification of
its lookup, histogram, split, finalize, subset and serialization operations.

Conventions of the embedding.

* `data_size_t` values (row indices, offsets, counts) are natural numbers.
  The source keeps them in a signed 32-bit type whose overflow is undefined:
  where a store of representable size can overflow it, in the midpoint
  `(low + high) >> 1` of the search and in the counters of `FinishLoad`, the
  result goes through `toDataSize` and is `none` from `2 ^ 31` on.  The
  signed arguments whose sign is inspected, `num_data` and `num_threahold`
  of the split operations, are of type `Int`.
* `VAL_T` is an unsigned integer of `vb` bytes; a conversion to `VAL_T` is
  `% 256 ^ vb`, and `uint32_t` arithmetic is `% 2 ^ 32`.
* The `std::vector` members are lists.  An access `v[i]` outside the vector
  is undefined in the source; the model returns `none` there, so that
  `some _` means the run stayed inside every vector and overflowed no
  checked index.
* Caller-owned arrays reached through a raw pointer (`data_indices`,
  `ordered_gradients`, `out`, `lte_indices`, ...) are functions from the
  offset to the element: the callee knows no extent for them.  The two
  output arrays of a split call and its input array do not overlap.
* `score_t` and `hist_t` are read as rationals (exact arithmetic).
* A prefetch hint of the histogram loops has no effect on the result; the
  vector read inside its operand is kept.  The field `shift_` is never read
  or written and is left out.
-/

namespace LightGBM

/-! ## Data model -/

/-- The fields of `MultiValDenseBin<VAL_T>`: `num_data_`, `data_`, `row_ptr_`
and `push_buf_`. -/
structure MultiValDenseBin where
  num_data_ : Nat
  data_ : List Nat
  row_ptr_ : List Nat
  push_buf_ : List (List Nat)
deriving DecidableEq, Repr

/-- The conversion `static_cast<VAL_T>(x)` for a `VAL_T` of `vb` bytes. -/
def castVal (vb : Nat) (x : Nat) : Nat := x % 256 ^ vb

/-- An element write `v[i] = x` on a vector: `none` when `i` is outside. -/
def vecSet {α : Type} (v : List α) (i : Nat) (x : α) : Option (List α) :=
  if i < v.length then some (v.set i x) else none

/-- The call `v.resize(n, x)`: keeps the first `n` elements and pads with `x`. -/
def vecResize {α : Type} (v : List α) (n : Nat) (x : α) : List α :=
  v.take n ++ List.replicate (n - v.length) x

/-- A counting loop `for (i = start; i < start + n; ++i) body(i)` over a
state, stopping at the first undefined step. -/
def forLoop {σ : Type} (body : Nat → σ → Option σ) : Nat → Nat → σ → Option σ
  | _, 0, st => some st
  | i, n + 1, st => (body i st).bind (fun st1 => forLoop body (i + 1) n st1)

/-- Modelled from the spec: `data_size_t`, a type declared in
`LightGBM/meta.h` outside this file, is the signed row index type, 4 bytes
wide in the persisted layout; its values lie below `2 ^ 31`. -/
def dataSizeBound : Nat := 2 ^ 31

/-- A result that the source keeps in `data_size_t`: `none` when it does not
fit (a signed overflow, undefined in the source). -/
def toDataSize (x : Nat) : Option Nat := if x < dataSizeBound then some x else none

/-! ## Point lookup -/

/-- The method `RowPtr(idx)`: `row_ptr_[idx]`. -/
def RowPtr (s : MultiValDenseBin) (idx : Nat) : Option Nat := s.row_ptr_[idx]?

/-- The `while (low < high)` loop shared by `GetRawBin` and `GetBin`.  The
midpoint `(low + high) >> 1` is computed in `data_size_t`: the sum must fit.
Every iteration shrinks `high - low`, so `fuel = high - low` iterations
always suffice; the loop is cut (result `none`) if the fuel runs out first. -/
def lowerBoundLoop (data : List Nat) (min_bin : Nat) : Nat → Nat → Nat → Option Nat
  | 0, low, high => if low < high then none else some low
  | fuel + 1, low, high =>
    if low < high then
      match toDataSize (low + high) with
      | none => none
      | some sum =>
        let mid := sum / 2
        match data[mid]? with
        | none => none
        | some x =>
          if x < min_bin then lowerBoundLoop data min_bin fuel (mid + 1) high
          else lowerBoundLoop data min_bin fuel low mid
    else some low

/-- The method `GetRawBin(idx, min_bin, max_bin, most_freq_bin)`; the three
bin arguments are already of type `VAL_T`. -/
def GetRawBin (s : MultiValDenseBin) (idx min_bin max_bin most_freq_bin : Nat) : Option Nat :=
  (RowPtr s idx).bind fun low0 =>
  (RowPtr s (idx + 1)).bind fun ub =>
  (lowerBoundLoop s.data_ min_bin (ub - low0) low0 ub).bind fun low =>
  if low < ub then
    s.data_[low]?.bind fun x =>
      if min_bin ≤ x ∧ x ≤ max_bin then some x else some most_freq_bin
  else some most_freq_bin

/-! ## Well-formedness of a finalized store -/

/-- The stored slice of row `r`: `data_[row_ptr_[r] : row_ptr_[r+1]]`. -/
def rowSlice (s : MultiValDenseBin) (r : Nat) : List Nat :=
  (s.data_.drop (s.row_ptr_.getD r 0)).take (s.row_ptr_.getD (r + 1) 0 - s.row_ptr_.getD r 0)

/-- The CSR invariant on the offsets: `num_data_ + 1` entries, first entry
`0`, non-decreasing, last entry the length of `data_`. -/
def OffsetsWF (s : MultiValDenseBin) : Prop :=
  s.row_ptr_.length = s.num_data_ + 1 ∧
  s.row_ptr_.getD 0 0 = 0 ∧
  (∀ i, i < s.num_data_ → s.row_ptr_.getD i 0 ≤ s.row_ptr_.getD (i + 1) 0) ∧
  s.row_ptr_.getD s.num_data_ 0 = s.data_.length

instance (s : MultiValDenseBin) : Decidable (OffsetsWF s) := by
  unfold OffsetsWF; infer_instance

/-- Every row slice is sorted ascending. -/
def RowsSorted (s : MultiValDenseBin) : Prop :=
  ∀ r, r < s.num_data_ → (rowSlice s r).Pairwise (· ≤ ·)

instance (s : MultiValDenseBin) : Decidable (RowsSorted s) := by
  unfold RowsSorted; infer_instance

/-! ## Histogram construction -/

/-- The statement macro `ACC_GH(hist, i, g, h)`: `ti = i << 1`,
`hist[ti] += g`, `hist[ti + 1] += h`. -/
def ACC_GH (hist : Nat → ℚ) (i : Nat) (g h : ℚ) : Nat → ℚ :=
  let ti := i * 2
  let hist1 := Function.update hist ti (hist ti + g)
  Function.update hist1 (ti + 1) (hist1 (ti + 1) + h)

/-- The inner loop of the four histogram variants:
`for (idx = RowPtr(row); idx < RowPtr(row + 1); ++idx) ACC_GH(out, data_[idx], g, h)`. -/
def histRow (s : MultiValDenseBin) (row : Nat) (g h : ℚ) (out : Nat → ℚ) : Option (Nat → ℚ) :=
  (RowPtr s row).bind fun a =>
  (RowPtr s (row + 1)).bind fun b =>
  forLoop (fun idx o => s.data_[idx]?.map fun bin => ACC_GH o bin g h) a (b - a) out

/-- The constant `prefetch_size` of the histogram loops. -/
def prefetch_size : Nat := 16

/-- Modelled from the spec: the software prefetch hint `PREFETCH_T0`, a macro
declared outside this file, is a performance technique with no effect on any
value; what remains of a hint guarded by `ahead` is the evaluation of the
vector element `row_ptr_[row]` inside its operand. -/
def prefetchRow (s : MultiValDenseBin) (ahead : Bool) (row : Nat) : Option Unit :=
  if ahead = true then (RowPtr s row).map fun _ => () else some ()

/-- The overload `ConstructHistogram(data_indices, start, end, ordered_gradients,
ordered_hessians, out)`. -/
def ConstructHistogram (s : MultiValDenseBin) (data_indices : Nat → Nat) (start end_ : Nat)
    (ordered_gradients ordered_hessians : Nat → ℚ) (out : Nat → ℚ) : Option (Nat → ℚ) :=
  forLoop (fun i o =>
      (prefetchRow s (decide (prefetch_size + i < end_))
        (data_indices (i + prefetch_size))).bind fun _ =>
      histRow s (data_indices i) (ordered_gradients i) (ordered_hessians i) o)
    start (end_ - start) out

/-- The overload `ConstructHistogram(start, end, ordered_gradients,
ordered_hessians, out)` over the contiguous rows `[start, end)`. -/
def ConstructHistogramRange (s : MultiValDenseBin) (start end_ : Nat)
    (ordered_gradients ordered_hessians : Nat → ℚ) (out : Nat → ℚ) : Option (Nat → ℚ) :=
  forLoop (fun i o =>
      (prefetchRow s (decide (prefetch_size + i < end_)) (i + prefetch_size)).bind fun _ =>
      histRow s i (ordered_gradients i) (ordered_hessians i) o)
    start (end_ - start) out

/-- The overload `ConstructHistogram(data_indices, start, end, ordered_gradients,
out)`: the hessian added is the constant `1.0f`. -/
def ConstructHistogramGrad (s : MultiValDenseBin) (data_indices : Nat → Nat) (start end_ : Nat)
    (ordered_gradients : Nat → ℚ) (out : Nat → ℚ) : Option (Nat → ℚ) :=
  forLoop (fun i o =>
      (prefetchRow s (decide (prefetch_size + i < end_))
        (data_indices (i + prefetch_size))).bind fun _ =>
      histRow s (data_indices i) (ordered_gradients i) 1 o)
    start (end_ - start) out

/-- The overload `ConstructHistogram(start, end, ordered_gradients, out)`. -/
def ConstructHistogramRangeGrad (s : MultiValDenseBin) (start end_ : Nat)
    (ordered_gradients : Nat → ℚ) (out : Nat → ℚ) : Option (Nat → ℚ) :=
  forLoop (fun i o =>
      (prefetchRow s (decide (prefetch_size + i < end_)) (i + prefetch_size)).bind fun _ =>
      histRow s i (ordered_gradients i) 1 o)
    start (end_ - start) out

/-! ## Split routing -/

/-- Modelled from the spec: the missing-type tag `None | NaN | Zero` of the
split operations; the enumeration `MissingType` is declared in
`LightGBM/bin.h`, outside this file. -/
inductive MissingType where
  | None
  | Zero
  | NaN
deriving DecidableEq, Repr

/-- Modelled from the spec: membership of `pos` in a bitset of `n` 32-bit
words (bit `pos % 32` of word `pos / 32`, and no member beyond the `n`
words); `Common::FindInBitset` is declared in the utilities header, outside
this file. -/
def FindInBitset (bits : Nat → Nat) (n : Int) (pos : Nat) : Bool :=
  decide (((pos / 32 : Nat) : Int) < n) && (bits (pos / 32)).testBit (pos % 32)

/-- The statement `x -= 1` on a `VAL_T` of `vb` bytes (wraps below zero). -/
def decVal (vb : Nat) (x : Nat) : Nat := (x + 256 ^ vb - 1) % 256 ^ vb

/-- The `uint32_t` subtraction `a - b`. -/
def subU32 (a b : Nat) : Nat := (a % 2 ^ 32 + 2 ^ 32 - b % 2 ^ 32) % 2 ^ 32

/-- The mutable state of a split call: the two output arrays and the local
counters `lte_count` and `gt_count`.  The value the call returns is
`lte_count`. -/
structure SplitState where
  lte_indices : Nat → Nat
  gt_indices : Nat → Nat
  lte_count : Nat
  gt_count : Nat

/-- The target of a pointer pair such as `(default_indices, default_count)`:
the pair is always aimed at `(lte_indices, &lte_count)` or at
`(gt_indices, &gt_count)`. -/
inductive Side where
  | lte
  | gt
deriving DecidableEq, Repr

/-- The statement `indices[(*count)++] = idx` through a pointer pair. -/
def SplitState.put (st : SplitState) (side : Side) (idx : Nat) : SplitState :=
  match side with
  | Side.lte => { st with lte_indices := Function.update st.lte_indices st.lte_count idx,
                          lte_count := st.lte_count + 1 }
  | Side.gt => { st with gt_indices := Function.update st.gt_indices st.gt_count idx,
                         gt_count := st.gt_count + 1 }

/-- The loop body of `Split` in the `MissingType::NaN` branch. -/
def splitBodyNaN (s : MultiValDenseBin) (minb maxb t_most_freq_bin th : Nat)
    (missing_default default_ : Side) (data_indices : Nat → Nat) (i : Nat) (st : SplitState) :
    Option SplitState :=
  let idx := data_indices i
  (GetRawBin s idx minb maxb t_most_freq_bin).map fun bin =>
    if bin = maxb then st.put missing_default idx
    else if t_most_freq_bin = bin then st.put default_ idx
    else if bin > th then st.put Side.gt idx
    else st.put Side.lte idx

/-- The loop body of `Split` outside the NaN branch when
`default_bin == most_freq_bin`. -/
def splitBodyShared (s : MultiValDenseBin) (minb maxb t_most_freq_bin th : Nat)
    (missing_default : Side) (data_indices : Nat → Nat) (i : Nat) (st : SplitState) :
    Option SplitState :=
  let idx := data_indices i
  (GetRawBin s idx minb maxb t_most_freq_bin).map fun bin =>
    if t_most_freq_bin = bin then st.put missing_default idx
    else if bin > th then st.put Side.gt idx
    else st.put Side.lte idx

/-- The loop body of `Split` outside the NaN branch when
`default_bin != most_freq_bin`. -/
def splitBodySeparate (s : MultiValDenseBin) (minb maxb t_default_bin t_most_freq_bin th : Nat)
    (missing_default default_ : Side) (data_indices : Nat → Nat) (i : Nat) (st : SplitState) :
    Option SplitState :=
  let idx := data_indices i
  (GetRawBin s idx minb maxb t_most_freq_bin).map fun bin =>
    if bin = t_default_bin then st.put missing_default idx
    else if t_most_freq_bin = bin then st.put default_ idx
    else if bin > th then st.put Side.gt idx
    else st.put Side.lte idx

/-- The method `Split`.  The result is the final state of the output arrays
and counters; the returned count is its `lte_count`. -/
def Split (vb : Nat) (s : MultiValDenseBin) (min_bin max_bin default_bin most_freq_bin : Nat)
    (missing_type : MissingType) (default_left : Bool) (threshold : Nat)
    (data_indices : Nat → Nat) (num_data : Int) (lte_indices gt_indices : Nat → Nat) :
    Option SplitState :=
  if num_data ≤ 0 then some ⟨lte_indices, gt_indices, 0, 0⟩ else
  let th0 := castVal vb ((threshold + min_bin) % 2 ^ 32)
  let minb := castVal vb min_bin
  let maxb := castVal vb max_bin
  let t_default_bin0 := castVal vb ((min_bin + default_bin) % 2 ^ 32)
  let t_most_freq_bin0 := castVal vb ((min_bin + most_freq_bin) % 2 ^ 32)
  let th := if most_freq_bin = 0 then decVal vb th0 else th0
  let t_default_bin := if most_freq_bin = 0 then decVal vb t_default_bin0 else t_default_bin0
  let t_most_freq_bin := if most_freq_bin = 0 then decVal vb t_most_freq_bin0 else t_most_freq_bin0
  let st0 : SplitState := ⟨lte_indices, gt_indices, 0, 0⟩
  let default_ := if most_freq_bin ≤ threshold then Side.lte else Side.gt
  if missing_type = MissingType.NaN then
    let missing_default := if default_left = true then Side.lte else Side.gt
    forLoop (splitBodyNaN s minb maxb t_most_freq_bin th missing_default default_ data_indices)
      0 num_data.toNat st0
  else
    let missing_default :=
      if (default_left = true ∧ missing_type = MissingType.Zero)
          ∨ (default_bin ≤ threshold ∧ missing_type ≠ MissingType.Zero)
      then Side.lte else Side.gt
    if default_bin = most_freq_bin then
      forLoop (splitBodyShared s minb maxb t_most_freq_bin th missing_default data_indices)
        0 num_data.toNat st0
    else
      forLoop (splitBodySeparate s minb maxb t_default_bin t_most_freq_bin th missing_default
        default_ data_indices) 0 num_data.toNat st0

/-- The loop body of `SplitCategorical`.  The call of `GetRawBin` converts its
three `uint32_t` bin arguments to `VAL_T`; the result is widened back to
`uint32_t` and `bin - min_bin` is a `uint32_t` subtraction. -/
def splitBodyCategorical (vb : Nat) (s : MultiValDenseBin) (min_bin max_bin most_freq_bin : Nat)
    (threshold : Nat → Nat) (num_threahold : Int) (default_ : Side) (data_indices : Nat → Nat)
    (i : Nat) (st : SplitState) : Option SplitState :=
  let idx := data_indices i
  (GetRawBin s idx (castVal vb min_bin) (castVal vb max_bin) (castVal vb most_freq_bin)).map
    fun bin =>
      if bin = most_freq_bin then st.put default_ idx
      else if FindInBitset threshold num_threahold (subU32 bin min_bin) = true then
        st.put Side.lte idx
      else st.put Side.gt idx

/-- The method `SplitCategorical`; the result is read as for `Split`. -/
def SplitCategorical (vb : Nat) (s : MultiValDenseBin) (min_bin max_bin most_freq_bin : Nat)
    (threshold : Nat → Nat) (num_threahold : Int) (data_indices : Nat → Nat) (num_data : Int)
    (lte_indices gt_indices : Nat → Nat) : Option SplitState :=
  if num_data ≤ 0 then some ⟨lte_indices, gt_indices, 0, 0⟩ else
  let st0 : SplitState := ⟨lte_indices, gt_indices, 0, 0⟩
  let default_ := if FindInBitset threshold num_threahold most_freq_bin = true then Side.lte
    else Side.gt
  forLoop (splitBodyCategorical vb s min_bin max_bin most_freq_bin threshold num_threahold
    default_ data_indices) 0 num_data.toNat st0

/-- The array `arr` after the list `l` was written into it from position
`pos` on. -/
def writeList (arr : Nat → Nat) (pos : Nat) (l : List Nat) : Nat → Nat :=
  fun j => if pos ≤ j ∧ j < pos + l.length then l.getD (j - pos) 0 else arr j

/-- The first `n` entries of an array, as a list. -/
def firstN (arr : Nat → Nat) (n : Nat) : List Nat := (List.range n).map arr

/-- A final split state `st` is a two-way partition of the `n` input
positions: the counters add up to `n`, the written entries of both outputs
together are a permutation of the input, and both output arrays are
untouched from their counter on. -/
def IsTwoWayPartition (data_indices : Nat → Nat) (n : Nat) (lte_indices gt_indices : Nat → Nat)
    (st : SplitState) : Prop :=
  st.lte_count + st.gt_count = n ∧
  (firstN st.lte_indices st.lte_count ++ firstN st.gt_indices st.gt_count).Perm
    (firstN data_indices n) ∧
  (∀ j, st.lte_count ≤ j → st.lte_indices j = lte_indices j) ∧
  (∀ j, st.gt_count ≤ j → st.gt_indices j = gt_indices j)

/-- The value of the lookup `GetRawBin(idx, min_bin, max_bin, d)` (it is
defined on every valid row of a finalized store). -/
def lookupVal (s : MultiValDenseBin) (idx min_bin max_bin d : Nat) : Nat :=
  (GetRawBin s idx min_bin max_bin d).getD d

/-- A window-relative bin `x` translated into stored ids the way `Split`
does for `th`, `t_default_bin` and `t_most_freq_bin`: `VAL_T(min_bin + x)`,
decremented when `most_freq_bin == 0`. -/
def shiftedBin (vb min_bin most_freq_bin x : Nat) : Nat :=
  if most_freq_bin = 0 then decVal vb (castVal vb ((min_bin + x) % 2 ^ 32))
  else castVal vb ((min_bin + x) % 2 ^ 32)

/-- The side on which `Split` puts a row whose lookup gave `bin`. -/
def splitSide (vb min_bin max_bin default_bin most_freq_bin : Nat) (missing_type : MissingType)
    (default_left : Bool) (threshold : Nat) (bin : Nat) : Side :=
  let th := shiftedBin vb min_bin most_freq_bin threshold
  let t_default_bin := shiftedBin vb min_bin most_freq_bin default_bin
  let t_most_freq_bin := shiftedBin vb min_bin most_freq_bin most_freq_bin
  let default_ := if most_freq_bin ≤ threshold then Side.lte else Side.gt
  if missing_type = MissingType.NaN then
    if bin = castVal vb max_bin then (if default_left = true then Side.lte else Side.gt)
    else if t_most_freq_bin = bin then default_
    else if bin > th then Side.gt else Side.lte
  else
    let missing_default :=
      if (default_left = true ∧ missing_type = MissingType.Zero)
          ∨ (default_bin ≤ threshold ∧ missing_type ≠ MissingType.Zero)
      then Side.lte else Side.gt
    if default_bin = most_freq_bin then
      if t_most_freq_bin = bin then missing_default
      else if bin > th then Side.gt else Side.lte
    else
      if bin = t_default_bin then missing_default
      else if t_most_freq_bin = bin then default_
      else if bin > th then Side.gt else Side.lte

/-- The side on which `SplitCategorical` puts a row whose lookup gave `bin`. -/
def splitCategoricalSide (min_bin most_freq_bin : Nat) (threshold : Nat → Nat)
    (num_threahold : Int) (bin : Nat) : Side :=
  if bin = most_freq_bin then
    (if FindInBitset threshold num_threahold most_freq_bin = true then Side.lte else Side.gt)
  else if FindInBitset threshold num_threahold (subU32 bin min_bin) = true then Side.lte
  else Side.gt

/-- The NaN-missing routing rule of the specification for a row whose lookup
gave `v`, with `off = 1` when `most_freq_bin = 0` and `0` otherwise and
`mf = min_bin + most_freq_bin - off`: `true` sends the row to `lte`. -/
def routeNaN (min_bin max_bin most_freq_bin threshold : Nat) (default_left : Bool) (v : Nat) :
    Bool :=
  let off := if most_freq_bin = 0 then 1 else 0
  let mf := min_bin + most_freq_bin - off
  if v = max_bin then default_left
  else if v = mf then decide (most_freq_bin ≤ threshold)
  else decide (v ≤ threshold + min_bin - off)

/-- The Zero/None-missing routing rule of the specification for a row whose
lookup gave `v`, with `off` and `mf` as in `routeNaN`,
`df = min_bin + default_bin - off` and `missing_left` the side decided once
for the default bin: `true` sends the row to `lte`. -/
def routeZeroNone (min_bin default_bin most_freq_bin threshold : Nat)
    (missing_type : MissingType) (default_left : Bool) (v : Nat) : Bool :=
  let off := if most_freq_bin = 0 then 1 else 0
  let mf := min_bin + most_freq_bin - off
  let df := min_bin + default_bin - off
  let missing_left : Bool :=
    (default_left && decide (missing_type = MissingType.Zero))
      || (decide (default_bin ≤ threshold) && decide (missing_type ≠ MissingType.Zero))
  if default_bin = most_freq_bin then
    if v = mf then missing_left else decide (v ≤ threshold + min_bin - off)
  else
    if v = df then missing_left
    else if v = mf then decide (most_freq_bin ≤ threshold)
    else decide (v ≤ threshold + min_bin - off)

/-- The categorical routing rule of the specification for a row whose lookup
gave the effective value `ev`; `sub ev min_bin` is the difference
`ev - min_bin`: `true` sends the row to `lte`. -/
def routeCategorical (sub : Nat → Nat → Nat) (min_bin most_freq_bin : Nat)
    (threshold : Nat → Nat) (num_threahold : Int) (ev : Nat) : Bool :=
  if ev = most_freq_bin then FindInBitset threshold num_threahold most_freq_bin
  else FindInBitset threshold num_threahold (sub ev min_bin)

/-! ## Construction and finalize -/

/-- The constructor `MultiValDenseBin(num_data)`: sets `num_data_` and sizes
`push_buf_` to `num_data_` empty rows; `data_` and `row_ptr_` start empty. -/
def MultiValDenseBin.ctor (num_data : Nat) : MultiValDenseBin :=
  { num_data_ := num_data, data_ := [], row_ptr_ := [],
    push_buf_ := vecResize [] num_data [] }

/-- The method `ReSize(num_data)`. -/
def ReSize (s : MultiValDenseBin) (num_data : Nat) : MultiValDenseBin :=
  if s.num_data_ ≠ num_data then
    { s with num_data_ := num_data, row_ptr_ := vecResize s.row_ptr_ (num_data + 1) 0 }
  else s

/-- The `k` bytes of the integer `x`. -/
def encodeLE (k x : Nat) : List Nat := (List.range k).map fun j => x / 256 ^ j % 256

/-- The integer held by a list of bytes. -/
def decodeLE (bytes : List Nat) : Nat := bytes.foldr (fun b acc => b + 256 * acc) 0

/-- The read `*reinterpret_cast<const T*>(memory + off)` of a `k`-byte integer. -/
def readLE (k : Nat) (memory : Nat → Nat) (off : Nat) : Nat :=
  decodeLE ((List.range k).map fun j => memory (off + j))

/-- The call `writer->Write(v.data(), k * count)`: the bytes of the first
`count` elements of the vector; `none` when the vector is shorter. -/
def writeArray (k : Nat) (v : List Nat) (count : Nat) : Option (List Nat) :=
  if count ≤ v.length then some ((v.take count).flatMap (encodeLE k)) else none

/-- The method `SaveBinaryToFile(writer)`: the bytes handed to the writer. -/
def SaveBinaryToFile (ib vb : Nat) (s : MultiValDenseBin) : Option (List Nat) :=
  (writeArray ib s.row_ptr_ (s.num_data_ + 1)).bind fun offsets =>
  (writeArray vb s.data_ s.data_.length).map fun values =>
    encodeLE ib s.num_data_ ++ offsets ++ values

/-- The body of the remap loop of `LoadFromMemory`. -/
def loadRemapBody (mem_row_ptr_data mem_data : Nat → Nat) (local_used_indices : List Nat)
    (i : Nat) (s : MultiValDenseBin) : Option MultiValDenseBin :=
  local_used_indices[i]?.bind fun u =>
  (forLoop (fun j d => some (d ++ [mem_data j])) (mem_row_ptr_data u)
    (mem_row_ptr_data (u + 1) - mem_row_ptr_data u) s.data_).bind fun data =>
  s.row_ptr_[i]?.bind fun ri =>
  (vecSet s.row_ptr_ (i + 1) (ri + mem_row_ptr_data (u + 1) - mem_row_ptr_data u)).map
    fun row_ptr => { s with data_ := data, row_ptr_ := row_ptr }

/-- The method `LoadFromMemory(memory, local_used_indices)`.  The memory is
read as unsigned integers and has no extent, so the embedding follows the
source on buffers that hold the whole file of a store whose row count and
offsets are non-negative in `data_size_t`. -/
def LoadFromMemory (ib vb : Nat) (s : MultiValDenseBin) (memory : Nat → Nat)
    (local_used_indices : List Nat) : Option MultiValDenseBin :=
  let mem_num_data := readLE ib memory 0
  let mem_row_ptr_data : Nat → Nat := fun i => readLE ib memory (ib + ib * i)
  let mem_data : Nat → Nat := fun j => readLE vb memory (ib + ib * (mem_num_data + 1) + vb * j)
  if ¬ local_used_indices.isEmpty then
    let s0 := { s with row_ptr_ := vecResize s.row_ptr_ (s.num_data_ + 1) 0, data_ := [] }
    forLoop (loadRemapBody mem_row_ptr_data mem_data local_used_indices) 0 s.num_data_ s0
  else
    (forLoop (fun i rp => vecSet rp i (mem_row_ptr_data i)) 0 (s.num_data_ + 1) s.row_ptr_).bind
      fun row_ptr =>
    row_ptr[s.num_data_]?.bind fun len =>
    (forLoop (fun i d => vecSet d i (mem_data i)) 0 len (vecResize s.data_ len 0)).map
      fun data => { s with row_ptr_ := row_ptr, data_ := data }

/-- A memory region that starts with the bytes of a file. -/
def memoryOf (bytes : List Nat) : Nat → Nat := fun i => bytes.getD i 0

/-- The conversion to `VAL_T` of a signed intermediate result. -/
def castValInt (vb : Nat) (z : Int) : Nat := (z % (256 ^ vb : Nat)).toNat

/-- The method `GetBin(idx, min_bin, max_bin, most_freq_bin, offset)`: the
search of `GetRawBin`; a value found in the window is returned as
`data_[low] - min_bin + offset`, converted to the return type `VAL_T`. -/
def GetBin (vb : Nat) (s : MultiValDenseBin) (idx min_bin max_bin most_freq_bin : Nat)
    (offset : Int) : Option Nat :=
  (RowPtr s idx).bind fun low0 =>
  (RowPtr s (idx + 1)).bind fun ub =>
  (lowerBoundLoop s.data_ min_bin (ub - low0) low0 ub).bind fun low =>
  if low < ub then
    s.data_[low]?.bind fun x =>
      if min_bin ≤ x ∧ x ≤ max_bin then some (castValInt vb ((x : Int) - (min_bin : Int) + offset))
      else some most_freq_bin
  else some most_freq_bin

/-- The fields of `MultiValDenseBinIterator<VAL_T>`. -/
structure MultiValDenseBinIterator where
  bin_data_ : MultiValDenseBin
  min_bin_ : Nat
  max_bin_ : Nat
  most_freq_bin_ : Nat
  offset_ : Nat

/-- The constructor of the iterator: the three bins are converted to
`VAL_T`, and `offset_` is `1` when the converted `most_freq_bin_` is `0`,
else `0`. -/
def MultiValDenseBinIterator.ctor (vb : Nat) (bin_data : MultiValDenseBin)
    (min_bin max_bin most_freq_bin : Nat) : MultiValDenseBinIterator :=
  { bin_data_ := bin_data, min_bin_ := castVal vb min_bin, max_bin_ := castVal vb max_bin,
    most_freq_bin_ := castVal vb most_freq_bin,
    offset_ := if castVal vb most_freq_bin = 0 then 1 else 0 }

/-- The method `GetIterator(min_bin, max_bin, most_freq_bin)`. -/
def GetIterator (vb : Nat) (s : MultiValDenseBin) (min_bin max_bin most_freq_bin : Nat) :
    MultiValDenseBinIterator :=
  MultiValDenseBinIterator.ctor vb s min_bin max_bin most_freq_bin

/-- The method `MultiValDenseBinIterator::Get(idx)`. -/
def MultiValDenseBinIterator.Get (vb : Nat) (it : MultiValDenseBinIterator) (idx : Nat) :
    Option Nat :=
  GetBin vb it.bin_data_ idx it.min_bin_ it.max_bin_ it.most_freq_bin_ (it.offset_ : Int)

/-- The private copy constructor: its initializer list names `num_data_` and
`data_` only, so `row_ptr_` and `push_buf_` are default-constructed (empty). -/
def MultiValDenseBin.copyCtor (other : MultiValDenseBin) : MultiValDenseBin :=
  { num_data_ := other.num_data_, data_ := other.data_, row_ptr_ := [], push_buf_ := [] }

/-- The method `Clone()`: `new MultiValDenseBin<VAL_T>(*this)`. -/
def Clone (s : MultiValDenseBin) : MultiValDenseBin := MultiValDenseBin.copyCtor s

/-! ## Example stores -/

/-- A finalized store of two rows: row 0 stores `{1}`, row 1 stores `{3, 7, 9}`. -/
def exLookup : MultiValDenseBin :=
  { num_data_ := 2, data_ := [1, 3, 7, 9], row_ptr_ := [0, 1, 4], push_buf_ := [] }

/-- A finalized store of one row that stores the bin `10`. -/
def exNaN : MultiValDenseBin :=
  { num_data_ := 1, data_ := [10], row_ptr_ := [0, 1], push_buf_ := [] }

/-- A finalized store of two rows: row 0 stores `{5}`, row 1 stores `{3}`. -/
def exCat : MultiValDenseBin :=
  { num_data_ := 2, data_ := [5, 3], row_ptr_ := [0, 1, 2], push_buf_ := [] }

/-- The bitset `{2, 5}` in one 32-bit word. -/
def exBits : Nat → Nat := fun i => if i = 0 then 36 else 0

/-- A finalized store of two rows that both store bin `6`. -/
def exHist : MultiValDenseBin :=
  { num_data_ := 2, data_ := [6, 6], row_ptr_ := [0, 1, 2], push_buf_ := [] }

/-! ## Theorems -/

theorem getElem?_eq_some_getD {α : Type} (l : List α) (i : Nat) (d : α) (h : i < l.length) :
    l[i]? = some (l.getD i d) := by
  simp [List.getD, List.getElem?_eq_getElem h]

theorem offsets_mono (s : MultiValDenseBin) (h : OffsetsWF s) :
    ∀ j, j ≤ s.num_data_ → ∀ i, i ≤ j → s.row_ptr_.getD i 0 ≤ s.row_ptr_.getD j 0 := by
  intro j
  induction j with
  | zero => intro _ i hi; have : i = 0 := by omega
            subst this; exact le_refl _
  | succ k ih =>
    intro hk i hi
    rcases Nat.lt_or_ge i (k + 1) with h1 | h1
    · exact le_trans (ih (by omega) i (by omega)) (h.2.2.1 k (by omega))
    · have : i = k + 1 := by omega
      subst this; exact le_refl _

theorem offsets_le_length (s : MultiValDenseBin) (h : OffsetsWF s) (i : Nat)
    (hi : i ≤ s.num_data_) : s.row_ptr_.getD i 0 ≤ s.data_.length := by
  rw [← h.2.2.2]; exact offsets_mono s h _ (le_refl _) i hi

theorem RowPtr_eq (s : MultiValDenseBin) (h : OffsetsWF s) (i : Nat) (hi : i ≤ s.num_data_) :
    RowPtr s i = some (s.row_ptr_.getD i 0) := by
  unfold RowPtr
  exact getElem?_eq_some_getD _ _ _ (by rw [h.1]; omega)

theorem mem_slice_iff (data : List Nat) (a b : Nat) (hab : a ≤ b) (hb : b ≤ data.length) (v : Nat) :
    v ∈ (data.drop a).take (b - a) ↔ ∃ j, a ≤ j ∧ j < b ∧ data.getD j 0 = v := by
  rw [List.mem_iff_getElem]
  constructor
  · rintro ⟨i, hi, rfl⟩
    simp only [List.length_take, List.length_drop] at hi
    refine ⟨a + i, by omega, by omega, ?_⟩
    simp [List.getElem_take, List.getElem_drop, List.getD, List.getElem?_eq_getElem (show a + i < data.length by omega)]
  · rintro ⟨j, h1, h2, rfl⟩
    refine ⟨j - a, by simp only [List.length_take, List.length_drop]; omega, ?_⟩
    have : a + (j - a) = j := by omega
    simp [List.getElem_take, List.getElem_drop, List.getD, this, List.getElem?_eq_getElem (show j < data.length by omega)]

theorem slice_sorted_index (data : List Nat) (a b : Nat) (hab : a ≤ b) (hb : b ≤ data.length)
    (hs : ((data.drop a).take (b - a)).Pairwise (· ≤ ·)) (i j : Nat) (hi : a ≤ i) (hij : i ≤ j)
    (hj : j < b) : data.getD i 0 ≤ data.getD j 0 := by
  rcases Nat.eq_or_lt_of_le hij with rfl | hlt
  · exact le_refl _
  · rw [List.pairwise_iff_getElem] at hs
    have hlen : ((data.drop a).take (b - a)).length = b - a := by
      simp only [List.length_take, List.length_drop]; omega
    have := hs (i - a) (j - a) (by omega) (by omega) (by omega)
    have e1 : a + (i - a) = i := by omega
    have e2 : a + (j - a) = j := by omega
    simpa [List.getElem_take, List.getElem_drop, List.getD, e1, e2,
      List.getElem?_eq_getElem (show i < data.length by omega),
      List.getElem?_eq_getElem (show j < data.length by omega)] using this

theorem toDataSize_of_lt (x : Nat) (h : x < 2 ^ 31) : toDataSize x = some x := by
  unfold toDataSize dataSizeBound
  rw [if_pos h]

/-- The binary search of `GetRawBin` returns the partition point of the
slice `[a, b)`: everything before it is below `min_bin`, everything from it
on is at least `min_bin`. -/
theorem lowerBoundLoop_spec (data : List Nat) (min_bin a b : Nat) (hb : b ≤ data.length)
    (hsz : b < 2 ^ 30)
    (hs : ∀ i j, a ≤ i → i ≤ j → j < b → data.getD i 0 ≤ data.getD j 0) :
    ∀ fuel low high, high - low ≤ fuel → a ≤ low → low ≤ high → high ≤ b →
      (∀ i, a ≤ i → i < low → data.getD i 0 < min_bin) →
      (∀ i, high ≤ i → i < b → min_bin ≤ data.getD i 0) →
      ∃ p, lowerBoundLoop data min_bin fuel low high = some p ∧ a ≤ p ∧ p ≤ b ∧
        (∀ i, a ≤ i → i < p → data.getD i 0 < min_bin) ∧
        (∀ i, p ≤ i → i < b → min_bin ≤ data.getD i 0) := by
  intro fuel
  induction fuel with
  | zero =>
    intro low high hf hal hlh hhb hlo hhi
    have : low = high := by omega
    subst this
    exact ⟨low, by simp [lowerBoundLoop], hal, hhb, hlo, hhi⟩
  | succ f ih =>
    intro low high hf hal hlh hhb hlo hhi
    by_cases hlt : low < high
    · have hmid : (low + high) / 2 < data.length := by omega
      have hsum : toDataSize (low + high) = some (low + high) :=
        toDataSize_of_lt _ (by omega)
      simp only [lowerBoundLoop, hlt, if_true, hsum, getElem?_eq_some_getD data _ 0 hmid]
      by_cases hx : data.getD ((low + high) / 2) 0 < min_bin
      · simp only [hx, if_true]
        refine ih _ _ (by omega) (by omega) (by omega) hhb ?_ hhi
        intro i h1 h2
        exact lt_of_le_of_lt (hs i _ h1 (by omega) (by omega)) hx
      · simp only [hx, if_false]
        refine ih _ _ (by omega) hal (by omega) (by omega) hlo ?_
        intro i h1 h2
        exact le_trans (not_lt.mp hx) (hs _ i (by omega) h1 h2)
    · have : low = high := by omega
      subst this
      exact ⟨low, by simp [lowerBoundLoop], hal, hhb, hlo, hhi⟩

/-- The lookup specification of `GetRawBin` on a store with well-formed
offsets and ascending row slices: the call returns, and its value is either
the least stored value of the row inside the window or, when the row stores
no value inside the window, the default. -/
theorem GetRawBin_spec (s : MultiValDenseBin) (hwf : OffsetsWF s) (hsorted : RowsSorted s)
    (hsize : s.data_.length < 2 ^ 30)
    (r : Nat) (hr : r < s.num_data_) (min_bin max_bin d : Nat) :
    ∃ v, GetRawBin s r min_bin max_bin d = some v ∧
      ((v ∈ rowSlice s r ∧ min_bin ≤ v ∧ v ≤ max_bin ∧
          ∀ u ∈ rowSlice s r, min_bin ≤ u → u ≤ max_bin → v ≤ u) ∨
       ((∀ u ∈ rowSlice s r, ¬ (min_bin ≤ u ∧ u ≤ max_bin)) ∧ v = d)) := by
  have hab : s.row_ptr_.getD r 0 ≤ s.row_ptr_.getD (r + 1) 0 := hwf.2.2.1 r hr
  have hb : s.row_ptr_.getD (r + 1) 0 ≤ s.data_.length := offsets_le_length s hwf _ (by omega)
  have hs := slice_sorted_index s.data_ _ _ hab hb (hsorted r hr)
  obtain ⟨p, hp, hap, hpb, hlo, hhi⟩ := lowerBoundLoop_spec s.data_ min_bin _ _ hb (by omega) hs
    (s.row_ptr_.getD (r + 1) 0 - s.row_ptr_.getD r 0) (s.row_ptr_.getD r 0)
    (s.row_ptr_.getD (r + 1) 0) (le_refl _) (le_refl _) hab (le_refl _)
    (fun i h1 h2 => by omega) (fun i h1 h2 => by omega)
  have hmem := mem_slice_iff s.data_ _ _ hab hb
  simp only [GetRawBin, RowPtr_eq s hwf r (by omega), RowPtr_eq s hwf (r + 1) (by omega),
    Option.some_bind, hp]
  by_cases hlt : p < s.row_ptr_.getD (r + 1) 0
  · simp only [hlt, if_true, getElem?_eq_some_getD s.data_ p 0 (by omega), Option.some_bind]
    by_cases hin : min_bin ≤ s.data_.getD p 0 ∧ s.data_.getD p 0 ≤ max_bin
    · refine ⟨_, by simp only [hin, and_self, if_true], Or.inl ⟨?_, hin.1, hin.2, ?_⟩⟩
      · exact (hmem _).2 ⟨p, hap, hlt, rfl⟩
      · intro u hu h1 _
        obtain ⟨j, hj1, hj2, rfl⟩ := (hmem u).1 hu
        rcases Nat.lt_or_ge j p with h | h
        · exact absurd (hlo j hj1 h) (by omega)
        · exact hs p j hap h hj2
    · refine ⟨d, by simp only [hin, if_false], Or.inr ⟨?_, rfl⟩⟩
      intro u hu ⟨h1, h2⟩
      obtain ⟨j, hj1, hj2, rfl⟩ := (hmem u).1 hu
      rcases Nat.lt_or_ge j p with h | h
      · exact absurd (hlo j hj1 h) (by omega)
      · have h3 := hs p j hap h hj2
        have h4 := hhi p (le_refl _) hlt
        exact hin ⟨h4, by omega⟩
  · refine ⟨d, by simp only [hlt, if_false], Or.inr ⟨?_, rfl⟩⟩
    intro u hu ⟨h1, _⟩
    obtain ⟨j, hj1, hj2, rfl⟩ := (hmem u).1 hu
    exact absurd (hlo j hj1 (by omega)) (by omega)

/-- Two values that both meet the lookup specification on the same slice are
equal. -/
theorem lookup_spec_unique (l : List Nat) (min_bin max_bin d v w : Nat)
    (hv : (v ∈ l ∧ min_bin ≤ v ∧ v ≤ max_bin ∧ ∀ u ∈ l, min_bin ≤ u → u ≤ max_bin → v ≤ u) ∨
      ((∀ u ∈ l, ¬ (min_bin ≤ u ∧ u ≤ max_bin)) ∧ v = d))
    (hw : (w ∈ l ∧ min_bin ≤ w ∧ w ≤ max_bin ∧ ∀ u ∈ l, min_bin ≤ u → u ≤ max_bin → w ≤ u) ∨
      ((∀ u ∈ l, ¬ (min_bin ≤ u ∧ u ≤ max_bin)) ∧ w = d)) : v = w := by
  rcases hv with ⟨v1, v2, v3, v4⟩ | ⟨v1, v2⟩
  · rcases hw with ⟨w1, w2, w3, w4⟩ | ⟨w1, _⟩
    · exact Nat.le_antisymm (v4 w w1 w2 w3) (w4 v v1 v2 v3)
    · exact absurd ⟨v2, v3⟩ (w1 v v1)
  · rcases hw with ⟨w1, w2, w3, _⟩ | ⟨_, w2⟩
    · exact absurd ⟨w2, w3⟩ (v1 w w1)
    · rw [v2, w2]

/-- C1. Lookup correctness of `GetRawBin`: on a store with well-formed
offsets and ascending row slices that holds fewer than `2 ^ 30` values (the
midpoint `(low + high) >> 1` stays inside `data_size_t`), for a row
`r < num_data_`, every window `[min_bin, max_bin]` and default `d`, the call
returns the smallest stored
value of row `r` that lies in the window when such a value exists, and
returns `d` when the row stores no value in the window. -/
theorem GetRawBin_correct (s : MultiValDenseBin) (hwf : OffsetsWF s) (hsorted : RowsSorted s)
    (hsize : s.data_.length < 2 ^ 30)
    (r : Nat) (hr : r < s.num_data_) (min_bin max_bin d : Nat) :
    (∀ v, v ∈ rowSlice s r → min_bin ≤ v → v ≤ max_bin →
        (∀ u ∈ rowSlice s r, min_bin ≤ u → u ≤ max_bin → v ≤ u) →
        GetRawBin s r min_bin max_bin d = some v) ∧
    ((∀ u ∈ rowSlice s r, ¬ (min_bin ≤ u ∧ u ≤ max_bin)) →
        GetRawBin s r min_bin max_bin d = some d) := by
  obtain ⟨w, hw, hws⟩ := GetRawBin_spec s hwf hsorted hsize r hr min_bin max_bin d
  constructor
  · intro v hv h1 h2 hleast
    rw [hw, lookup_spec_unique _ min_bin max_bin d w v hws (Or.inl ⟨hv, h1, h2, hleast⟩)]
  · intro hnone
    rw [hw, lookup_spec_unique _ min_bin max_bin d w d hws (Or.inr ⟨hnone, rfl⟩)]

theorem GetRawBin_correct_witness :
    OffsetsWF exLookup ∧ RowsSorted exLookup ∧ rowSlice exLookup 1 = [3, 7, 9] ∧
      GetRawBin exLookup 1 5 8 0 = some 7 ∧ GetRawBin exLookup 1 4 6 0 = some 0 :=
  ⟨by decide, by decide, by decide,
    (GetRawBin_correct exLookup (by decide) (by decide) (by decide) 1 (by decide) 5 8 0).1 7
      (by decide) (by decide) (by decide) (by decide),
    (GetRawBin_correct exLookup (by decide) (by decide) (by decide) 1 (by decide) 4 6 0).2 (by decide)⟩

/-! ### Histogram accumulation -/

theorem writeList_nil (arr : Nat → Nat) (pos : Nat) : writeList arr pos [] = arr := by
  funext j
  simp only [writeList, List.length_nil, Nat.add_zero]
  rw [if_neg (by omega)]

theorem writeList_update (arr : Nat → Nat) (pos x : Nat) (l : List Nat) :
    writeList (Function.update arr pos x) (pos + 1) l = writeList arr pos (x :: l) := by
  funext j
  simp only [writeList, List.length_cons]
  by_cases h1 : pos + 1 ≤ j ∧ j < pos + 1 + l.length
  · rw [if_pos h1, if_pos (by omega)]
    obtain ⟨k, hk⟩ : ∃ k, j - pos = k + 1 := ⟨j - pos - 1, by omega⟩
    have hk2 : j - (pos + 1) = k := by omega
    rw [hk, hk2]
    simp [List.getD]
  · rw [if_neg h1]
    by_cases h2 : j = pos
    · subst h2
      rw [if_pos (by omega)]
      simp [List.getD]
    · rw [if_neg (by omega), Function.update_noteq h2]

theorem firstN_writeList (arr : Nat → Nat) (l : List Nat) :
    firstN (writeList arr 0 l) l.length = l := by
  apply List.ext_getElem
  · simp [firstN]
  · intro i h1 h2
    simp only [firstN, List.getElem_map, List.getElem_range, writeList]
    rw [if_pos (by omega)]
    simp [List.getD, List.getElem?_eq_getElem h2]

theorem writeList_beyond (arr : Nat → Nat) (l : List Nat) (j : Nat) (hj : l.length ≤ j) :
    writeList arr 0 l j = arr j := by
  simp only [writeList]
  rw [if_neg (by omega)]

/-- A split loop whose body sends position `i` to the side picked by `route`
on the row `data_indices[i]` writes, in input order, the rows routed left
into `lte_indices` and the others into `gt_indices`. -/
theorem splitLoop_spec (body : Nat → SplitState → Option SplitState) (data_indices : Nat → Nat)
    (route : Nat → Bool) :
    ∀ n start (st0 : SplitState),
      (∀ i, start ≤ i → i < start + n → ∀ st, body i st =
        some (st.put (if route (data_indices i) = true then Side.lte else Side.gt)
          (data_indices i))) →
      forLoop body start n st0 = some
        ⟨writeList st0.lte_indices st0.lte_count
            (((List.range' start n).map data_indices).filter route),
         writeList st0.gt_indices st0.gt_count
            (((List.range' start n).map data_indices).filter (fun x => !route x)),
         st0.lte_count + (((List.range' start n).map data_indices).filter route).length,
         st0.gt_count
            + (((List.range' start n).map data_indices).filter (fun x => !route x)).length⟩ := by
  intro n
  induction n with
  | zero =>
    intro start st0 _
    simp [forLoop, writeList_nil]
  | succ n ih =>
    intro start st0 hbody
    have hstep := hbody start (le_refl _) (by omega) st0
    have hrest := ih (start + 1) (st0.put (if route (data_indices start) = true then Side.lte
      else Side.gt) (data_indices start)) (fun i h1 h2 => hbody i (by omega) (by omega))
    simp only [forLoop, hstep, Option.some_bind, hrest, List.range'_succ, List.map_cons]
    rcases Bool.eq_false_or_eq_true (route (data_indices start)) with hr | hr
    · simp only [hr, if_true, SplitState.put, List.filter_cons_of_pos, Bool.not_true,
        Bool.false_eq_true, not_false_eq_true, List.filter_cons_of_neg, writeList_update,
        List.length_cons, Option.some.injEq, SplitState.mk.injEq, true_and]
      exact ⟨by omega, trivial⟩
    · simp only [hr, Bool.false_eq_true, if_false, SplitState.put, not_false_eq_true,
        List.filter_cons_of_neg, Bool.not_false, List.filter_cons_of_pos, writeList_update,
        List.length_cons, Option.some.injEq, SplitState.mk.injEq, true_and]
      omega

/-- The loop of a split call, run from empty counters over the first `n`
positions, leaves a two-way partition with the left rows in `lte_indices`. -/
theorem splitLoop_result (body : Nat → SplitState → Option SplitState) (data_indices : Nat → Nat)
    (route : Nat → Bool) (n : Nat) (lte gt : Nat → Nat)
    (hbody : ∀ i, i < n → ∀ st, body i st =
        some (st.put (if route (data_indices i) = true then Side.lte else Side.gt)
          (data_indices i))) :
    ∃ st, forLoop body 0 n ⟨lte, gt, 0, 0⟩ = some st ∧
      firstN st.lte_indices st.lte_count = (firstN data_indices n).filter route ∧
      firstN st.gt_indices st.gt_count = (firstN data_indices n).filter (fun x => !route x) ∧
      IsTwoWayPartition data_indices n lte gt st := by
  have h := splitLoop_spec body data_indices route n 0 ⟨lte, gt, 0, 0⟩
    (fun i _ h2 st => hbody i (by omega) st)
  rw [← List.range_eq_range'] at h
  refine ⟨_, h, ?_, ?_, ?_, ?_, ?_, ?_⟩
  · simp only [Nat.zero_add]; exact firstN_writeList _ _
  · simp only [Nat.zero_add]; exact firstN_writeList _ _
  · simp only [Nat.zero_add]
    have := (List.filter_append_perm route ((List.range n).map data_indices)).length_eq
    simpa [firstN] using this
  · simp only [Nat.zero_add]
    rw [firstN_writeList, firstN_writeList]
    exact List.filter_append_perm route _
  · intro j hj
    simp only [Nat.zero_add] at hj ⊢
    exact writeList_beyond _ _ j hj
  · intro j hj
    simp only [Nat.zero_add] at hj ⊢
    exact writeList_beyond _ _ j hj

theorem GetRawBin_lookupVal (s : MultiValDenseBin) (hwf : OffsetsWF s) (hsorted : RowsSorted s)
    (hsize : s.data_.length < 2 ^ 30)
    (r : Nat) (hr : r < s.num_data_) (min_bin max_bin d : Nat) :
    GetRawBin s r min_bin max_bin d = some (lookupVal s r min_bin max_bin d) := by
  obtain ⟨v, hv, _⟩ := GetRawBin_spec s hwf hsorted hsize r hr min_bin max_bin d
  simp [lookupVal, hv]

theorem side_ite (sd : Side) : (if decide (sd = Side.lte) = true then Side.lte else Side.gt) = sd := by
  cases sd <;> rfl

/-- A loop body that looks a row up and puts it on the side `side bin` is a
routed body in the sense of `splitLoop_spec`. -/
theorem routedBody (s : MultiValDenseBin) (hwf : OffsetsWF s) (hsorted : RowsSorted s)
    (hsize : s.data_.length < 2 ^ 30)
    (body : Nat → SplitState → Option SplitState) (data_indices : Nat → Nat) (a b c : Nat)
    (side : Nat → Side) (n : Nat) (hvalid : ∀ i, i < n → data_indices i < s.num_data_)
    (hbody : ∀ i st, body i st = (GetRawBin s (data_indices i) a b c).map
      fun bin => st.put (side bin) (data_indices i)) :
    ∀ i, i < n → ∀ st, body i st =
      some (st.put (if (fun idx => decide (side (lookupVal s idx a b c) = Side.lte))
        (data_indices i) = true then Side.lte else Side.gt) (data_indices i)) := by
  intro i hi st
  rw [hbody, GetRawBin_lookupVal s hwf hsorted hsize _ (hvalid i hi)]
  simp only [Option.map_some', side_ite]

/-- The run of `Split` on a finalized store: the call returns, the rows the
loop body sends left are written in input order to `lte_indices`, the others
to `gt_indices`. -/
theorem Split_run (vb : Nat) (s : MultiValDenseBin) (hwf : OffsetsWF s) (hsorted : RowsSorted s)
    (hsize : s.data_.length < 2 ^ 30)
    (min_bin max_bin default_bin most_freq_bin : Nat) (missing_type : MissingType)
    (default_left : Bool) (threshold : Nat) (data_indices : Nat → Nat) (num_data : Int)
    (hn : 0 < num_data) (hvalid : ∀ i, i < num_data.toNat → data_indices i < s.num_data_)
    (lte gt : Nat → Nat) :
    ∃ st, Split vb s min_bin max_bin default_bin most_freq_bin missing_type default_left
        threshold data_indices num_data lte gt = some st ∧
      firstN st.lte_indices st.lte_count = (firstN data_indices num_data.toNat).filter
        (fun idx => decide (splitSide vb min_bin max_bin default_bin most_freq_bin missing_type
          default_left threshold (lookupVal s idx (castVal vb min_bin) (castVal vb max_bin)
            (shiftedBin vb min_bin most_freq_bin most_freq_bin)) = Side.lte)) ∧
      firstN st.gt_indices st.gt_count = (firstN data_indices num_data.toNat).filter
        (fun idx => !decide (splitSide vb min_bin max_bin default_bin most_freq_bin missing_type
          default_left threshold (lookupVal s idx (castVal vb min_bin) (castVal vb max_bin)
            (shiftedBin vb min_bin most_freq_bin most_freq_bin)) = Side.lte)) ∧
      IsTwoWayPartition data_indices num_data.toNat lte gt st := by
  have hn2 : ¬ num_data ≤ 0 := not_le.mpr hn
  by_cases hnan : missing_type = MissingType.NaN
  · simp only [Split, if_neg hn2, if_pos hnan, Nat.add_comm threshold min_bin]
    refine splitLoop_result _ data_indices _ num_data.toNat lte gt ?_
    refine routedBody s hwf hsorted hsize _ data_indices _ _ _ _ _ hvalid ?_
    intro i st
    simp only [splitBodyNaN, splitSide, shiftedBin, if_pos hnan]
    congr 1
    funext bin
    split_ifs <;> rfl
  · by_cases hdm : default_bin = most_freq_bin
    · simp only [Split, if_neg hn2, if_neg hnan, if_pos hdm, Nat.add_comm threshold min_bin]
      refine splitLoop_result _ data_indices _ num_data.toNat lte gt ?_
      refine routedBody s hwf hsorted hsize _ data_indices _ _ _ _ _ hvalid ?_
      intro i st
      simp only [splitBodyShared, splitSide, shiftedBin, if_neg hnan, if_pos hdm]
      congr 1
      funext bin
      split_ifs <;> rfl
    · simp only [Split, if_neg hn2, if_neg hnan, if_neg hdm, Nat.add_comm threshold min_bin]
      refine splitLoop_result _ data_indices _ num_data.toNat lte gt ?_
      refine routedBody s hwf hsorted hsize _ data_indices _ _ _ _ _ hvalid ?_
      intro i st
      simp only [splitBodySeparate, splitSide, shiftedBin, if_neg hnan, if_neg hdm]
      congr 1
      funext bin
      split_ifs <;> rfl

/-- The run of `SplitCategorical` on a finalized store, as `Split_run`. -/
theorem SplitCategorical_run (vb : Nat) (s : MultiValDenseBin) (hwf : OffsetsWF s)
    (hsorted : RowsSorted s)
    (hsize : s.data_.length < 2 ^ 30) (min_bin max_bin most_freq_bin : Nat) (threshold : Nat → Nat)
    (num_threahold : Int) (data_indices : Nat → Nat) (num_data : Int)
    (hn : 0 < num_data) (hvalid : ∀ i, i < num_data.toNat → data_indices i < s.num_data_)
    (lte gt : Nat → Nat) :
    ∃ st, SplitCategorical vb s min_bin max_bin most_freq_bin threshold num_threahold
        data_indices num_data lte gt = some st ∧
      firstN st.lte_indices st.lte_count = (firstN data_indices num_data.toNat).filter
        (fun idx => decide (splitCategoricalSide min_bin most_freq_bin threshold num_threahold
          (lookupVal s idx (castVal vb min_bin) (castVal vb max_bin)
            (castVal vb most_freq_bin)) = Side.lte)) ∧
      firstN st.gt_indices st.gt_count = (firstN data_indices num_data.toNat).filter
        (fun idx => !decide (splitCategoricalSide min_bin most_freq_bin threshold num_threahold
          (lookupVal s idx (castVal vb min_bin) (castVal vb max_bin)
            (castVal vb most_freq_bin)) = Side.lte)) ∧
      IsTwoWayPartition data_indices num_data.toNat lte gt st := by
  have hn2 : ¬ num_data ≤ 0 := not_le.mpr hn
  simp only [SplitCategorical, if_neg hn2]
  refine splitLoop_result _ data_indices _ num_data.toNat lte gt ?_
  refine routedBody s hwf hsorted hsize _ data_indices _ _ _ _ _ hvalid ?_
  intro i st
  simp only [splitBodyCategorical, splitCategoricalSide]
  congr 1
  funext bin
  split_ifs <;> rfl

/-- C3. Split completeness and exclusivity: on a finalized store of fewer
than `2 ^ 30` values (the lookups stay inside `data_size_t`), with
`num_data > 0` and valid row indices, every call of `Split` and of
`SplitCategorical` returns a count `k = lte_count` with exactly `k` entries
written to `lte_indices` and `num_data - k` to `gt_indices` (both arrays are
untouched beyond), and the written entries of `lte_indices` followed by
those of `gt_indices` are a permutation of `data_indices[0..num_data)`. -/
theorem Split_complete_exclusive (vb : Nat) (s : MultiValDenseBin) (hwf : OffsetsWF s)
    (hsorted : RowsSorted s)
    (hsize : s.data_.length < 2 ^ 30)
    (data_indices : Nat → Nat) (num_data : Int) (hn : 0 < num_data)
    (hvalid : ∀ i, i < num_data.toNat → data_indices i < s.num_data_) (lte gt : Nat → Nat) :
    (∀ min_bin max_bin default_bin most_freq_bin missing_type default_left threshold,
      ∃ st, Split vb s min_bin max_bin default_bin most_freq_bin missing_type default_left
          threshold data_indices num_data lte gt = some st ∧
        IsTwoWayPartition data_indices num_data.toNat lte gt st) ∧
    (∀ min_bin max_bin most_freq_bin threshold num_threahold,
      ∃ st, SplitCategorical vb s min_bin max_bin most_freq_bin threshold num_threahold
          data_indices num_data lte gt = some st ∧
        IsTwoWayPartition data_indices num_data.toNat lte gt st) := by
  constructor
  · intro min_bin max_bin default_bin most_freq_bin missing_type default_left threshold
    obtain ⟨st, h, _, _, hp⟩ := Split_run vb s hwf hsorted hsize min_bin max_bin default_bin
      most_freq_bin missing_type default_left threshold data_indices num_data hn hvalid lte gt
    exact ⟨st, h, hp⟩
  · intro min_bin max_bin most_freq_bin threshold num_threahold
    obtain ⟨st, h, _, _, hp⟩ := SplitCategorical_run vb s hwf hsorted hsize min_bin max_bin
      most_freq_bin threshold num_threahold data_indices num_data hn hvalid lte gt
    exact ⟨st, h, hp⟩

theorem Split_complete_exclusive_witness :
    OffsetsWF exLookup ∧ RowsSorted exLookup ∧
    (∃ st, Split 1 exLookup 1 10 0 4 MissingType.NaN true 3 (fun i => 1 - i) 2
        (fun _ => 0) (fun _ => 0) = some st ∧
      IsTwoWayPartition (fun i => 1 - i) 2 (fun _ => 0) (fun _ => 0) st) ∧
    (∃ st, SplitCategorical 1 exLookup 1 10 4 exBits 1 (fun i => 1 - i) 2
        (fun _ => 0) (fun _ => 0) = some st ∧
      IsTwoWayPartition (fun i => 1 - i) 2 (fun _ => 0) (fun _ => 0) st) :=
  ⟨by decide, by decide,
    (Split_complete_exclusive 1 exLookup (by decide) (by decide) (by decide) (fun i => 1 - i) 2 (by decide)
      (fun i _ => by show 1 - i < 2; omega) (fun _ => 0) (fun _ => 0)).1 1 10 0 4
      MissingType.NaN true 3,
    (Split_complete_exclusive 1 exLookup (by decide) (by decide) (by decide) (fun i => 1 - i) 2 (by decide)
      (fun i _ => by show 1 - i < 2; omega) (fun _ => 0) (fun _ => 0)).2 1 10 4 exBits 1⟩

/-! ### Split: the routing rules -/

theorem pow256_le (vb : Nat) (hvb : vb ≤ 4) : 256 ^ vb ≤ 2 ^ 32 := by
  calc 256 ^ vb ≤ 256 ^ 4 := Nat.pow_le_pow_right (by decide) hvb
    _ = 2 ^ 32 := by norm_num

theorem castVal_of_lt (vb x : Nat) (h : x < 256 ^ vb) : castVal vb x = x :=
  Nat.mod_eq_of_lt h

/-- Without overflow the translation of `Split` is `min_bin + x - off`. -/
theorem shiftedBin_eq (vb : Nat) (hvb : vb ≤ 4) (min_bin most_freq_bin x : Nat)
    (hx : min_bin + x < 256 ^ vb) (hoff : most_freq_bin = 0 → 1 ≤ min_bin) :
    shiftedBin vb min_bin most_freq_bin x
      = min_bin + x - (if most_freq_bin = 0 then 1 else 0) := by
  have h32 := pow256_le vb hvb
  have e1 : (min_bin + x) % 2 ^ 32 = min_bin + x := Nat.mod_eq_of_lt (by omega)
  unfold shiftedBin
  rw [e1, castVal_of_lt vb _ hx]
  by_cases h0 : most_freq_bin = 0
  · have := hoff h0
    simp only [h0, if_true, decVal]
    have e2 : min_bin + x + 256 ^ vb - 1 = (min_bin + x - 1) + 256 ^ vb := by omega
    rw [e2, Nat.add_mod_right, Nat.mod_eq_of_lt (by omega)]
  · simp only [h0, if_false, Nat.sub_zero]

theorem splitSide_NaN (vb : Nat) (hvb : vb ≤ 4) (min_bin max_bin default_bin most_freq_bin : Nat)
    (default_left : Bool) (threshold : Nat) (hmax : max_bin < 256 ^ vb)
    (hth : threshold + min_bin < 256 ^ vb) (hmf : min_bin + most_freq_bin < 256 ^ vb)
    (hoff : most_freq_bin = 0 → 1 ≤ min_bin) (v : Nat) :
    decide (splitSide vb min_bin max_bin default_bin most_freq_bin MissingType.NaN default_left
      threshold v = Side.lte) = routeNaN min_bin max_bin most_freq_bin threshold default_left v := by
  have e1 := shiftedBin_eq vb hvb min_bin most_freq_bin threshold (by omega) hoff
  have e2 := shiftedBin_eq vb hvb min_bin most_freq_bin most_freq_bin hmf hoff
  simp only [splitSide, routeNaN, e1, e2, castVal_of_lt vb _ hmax, if_true,
    Nat.add_comm threshold min_bin]
  by_cases h1 : v = max_bin
  · simp only [h1, if_true]
    cases default_left <;> simp
  · simp only [h1, if_false]
    by_cases h2 : min_bin + most_freq_bin - (if most_freq_bin = 0 then 1 else 0) = v
    · simp only [h2, if_true]
      by_cases h3 : most_freq_bin ≤ threshold <;> simp [h3]
    · have h2b : ¬ v = min_bin + most_freq_bin - (if most_freq_bin = 0 then 1 else 0) :=
        fun h => h2 h.symm
      simp only [h2, h2b, if_false]
      by_cases h3 : v > min_bin + threshold - (if most_freq_bin = 0 then 1 else 0)
      · simp only [h3, if_true]
        simp only [gt_iff_lt] at h3
        simp [not_le.mpr h3]
      · simp only [h3, if_false]
        simp only [gt_iff_lt, not_lt] at h3
        simp [h3]

/-- C4. NaN-missing routing of `Split`: on a finalized store of fewer than
`2 ^ 30` values (the lookups stay inside `data_size_t`), with
`missing_type = NaN` and no storage-width overflow (`max_bin`, `threshold + min_bin` and
`min_bin + most_freq_bin` fit in `VAL_T`, and `min_bin ≥ 1` when
`most_freq_bin = 0`), with `off`, `mf` and `v = lookup(row, min_bin, max_bin, mf)`
as in `routeNaN`, a row goes to `lte` iff `default_left` when `v = max_bin`,
else iff `most_freq_bin ≤ threshold` when `v = mf`, else iff
`v ≤ threshold + min_bin - off`; the other rows go to `gt`. -/
theorem Split_NaN_routing (vb : Nat) (hvb : vb ≤ 4) (s : MultiValDenseBin) (hwf : OffsetsWF s)
    (hsorted : RowsSorted s)
    (hsize : s.data_.length < 2 ^ 30) (min_bin max_bin default_bin most_freq_bin : Nat)
    (default_left : Bool) (threshold : Nat) (data_indices : Nat → Nat) (num_data : Int)
    (hn : 0 < num_data) (hvalid : ∀ i, i < num_data.toNat → data_indices i < s.num_data_)
    (lte gt : Nat → Nat) (hmax : max_bin < 256 ^ vb) (hth : threshold + min_bin < 256 ^ vb)
    (hmf : min_bin + most_freq_bin < 256 ^ vb) (hoff : most_freq_bin = 0 → 1 ≤ min_bin) :
    ∃ st, Split vb s min_bin max_bin default_bin most_freq_bin MissingType.NaN default_left
        threshold data_indices num_data lte gt = some st ∧
      firstN st.lte_indices st.lte_count = (firstN data_indices num_data.toNat).filter
        (fun idx => routeNaN min_bin max_bin most_freq_bin threshold default_left
          (lookupVal s idx min_bin max_bin
            (min_bin + most_freq_bin - (if most_freq_bin = 0 then 1 else 0)))) ∧
      firstN st.gt_indices st.gt_count = (firstN data_indices num_data.toNat).filter
        (fun idx => !routeNaN min_bin max_bin most_freq_bin threshold default_left
          (lookupVal s idx min_bin max_bin
            (min_bin + most_freq_bin - (if most_freq_bin = 0 then 1 else 0)))) := by
  obtain ⟨st, h, hl, hg, _⟩ := Split_run vb s hwf hsorted hsize min_bin max_bin default_bin
    most_freq_bin MissingType.NaN default_left threshold data_indices num_data hn hvalid lte gt
  have e2 := shiftedBin_eq vb hvb min_bin most_freq_bin most_freq_bin hmf hoff
  have hside := splitSide_NaN vb hvb min_bin max_bin default_bin most_freq_bin default_left
    threshold hmax hth hmf hoff
  simp only [hside, e2, castVal_of_lt vb max_bin hmax,
    castVal_of_lt vb min_bin (by omega)] at hl hg
  exact ⟨st, h, hl, hg⟩

theorem Split_NaN_routing_witness :
    ∃ st, Split 1 exNaN 1 10 0 4 MissingType.NaN true 3 (fun _ => 0) 1 (fun _ => 7)
        (fun _ => 7) = some st ∧
      firstN st.lte_indices st.lte_count = [0] ∧ firstN st.gt_indices st.gt_count = [] := by
  obtain ⟨st, h, hl, hg⟩ := Split_NaN_routing 1 (by decide) exNaN (by decide) (by decide) (by decide)
    1 10 0 4 true 3 (fun _ => 0) 1 (by decide) (fun _ _ => by show (0 : Nat) < 1; decide)
    (fun _ => 7) (fun _ => 7)
    (by decide) (by decide) (by decide) (by decide)
  refine ⟨st, h, ?_, ?_⟩
  · rw [hl]; decide
  · rw [hg]; decide

theorem splitSide_ZeroNone (vb : Nat) (hvb : vb ≤ 4)
    (min_bin max_bin default_bin most_freq_bin : Nat) (missing_type : MissingType)
    (hmt : missing_type ≠ MissingType.NaN) (default_left : Bool) (threshold : Nat)
    (hth : threshold + min_bin < 256 ^ vb) (hmf : min_bin + most_freq_bin < 256 ^ vb)
    (hdf : min_bin + default_bin < 256 ^ vb) (hoff : most_freq_bin = 0 → 1 ≤ min_bin) (v : Nat) :
    decide (splitSide vb min_bin max_bin default_bin most_freq_bin missing_type default_left
      threshold v = Side.lte)
      = routeZeroNone min_bin default_bin most_freq_bin threshold missing_type default_left v := by
  have e1 := shiftedBin_eq vb hvb min_bin most_freq_bin threshold (by omega) hoff
  have e2 := shiftedBin_eq vb hvb min_bin most_freq_bin most_freq_bin hmf hoff
  have e3 := shiftedBin_eq vb hvb min_bin most_freq_bin default_bin hdf hoff
  have hml : ∀ (c : Prop) [Decidable c] (b : Bool), (c ↔ b = true) →
      decide ((if c then Side.lte else Side.gt) = Side.lte) = b := by
    intro c _ b hcb
    by_cases hc : c
    · simp [hc, (hcb.1 hc)]
    · have : b = false := by
        cases b
        · rfl
        · exact absurd (hcb.2 rfl) hc
      simp [hc, this]
  have hthr : ∀ (x t : Nat), decide ((if x > t then Side.gt else Side.lte) = Side.lte)
      = decide (x ≤ t) := by
    intro x t
    by_cases h : x > t
    · simp [h]
    · simp [h, not_lt.mp h]
  simp only [splitSide, routeZeroNone, e1, e2, e3, if_neg hmt, Nat.add_comm threshold min_bin]
  by_cases hdm : default_bin = most_freq_bin
  · simp only [hdm, if_true]
    by_cases h2 : min_bin + most_freq_bin - (if most_freq_bin = 0 then 1 else 0) = v
    · simp only [h2, if_true]
      apply hml
      simp
    · have h2b : ¬ v = min_bin + most_freq_bin - (if most_freq_bin = 0 then 1 else 0) :=
        fun h => h2 h.symm
      simp only [h2, h2b, if_false]
      exact hthr _ _
  · simp only [hdm, if_false]
    by_cases h1 : v = min_bin + default_bin - (if most_freq_bin = 0 then 1 else 0)
    · simp only [h1, if_true]
      apply hml
      simp
    · simp only [h1, if_false]
      by_cases h2 : min_bin + most_freq_bin - (if most_freq_bin = 0 then 1 else 0) = v
      · simp only [h2, if_true]
        apply hml
        simp
      · have h2b : ¬ v = min_bin + most_freq_bin - (if most_freq_bin = 0 then 1 else 0) :=
          fun h => h2 h.symm
        simp only [h2, h2b, if_false]
        exact hthr _ _

/-- C5. Zero/None-missing routing of `Split`: on a finalized store of fewer
than `2 ^ 30` values (the lookups stay inside `data_size_t`), with
`missing_type` in `{None, Zero}` and no storage-width overflow (as for the NaN rule, and
`min_bin + default_bin` fits in `VAL_T`), with `off`, `mf`, `df`,
`missing_left` as in `routeZeroNone` and `v = lookup(row, min_bin, max_bin, mf)`:
if `default_bin = most_freq_bin` a row with `v = mf` goes to `lte` iff
`missing_left` and any other row iff `v ≤ threshold + min_bin - off`; if
`default_bin ≠ most_freq_bin` a row with `v = df` goes to `lte` iff
`missing_left`, otherwise a row with `v = mf` iff `most_freq_bin ≤ threshold`,
otherwise iff `v ≤ threshold + min_bin - off`; the other rows go to `gt`. -/
theorem Split_ZeroNone_routing (vb : Nat) (hvb : vb ≤ 4) (s : MultiValDenseBin)
    (hwf : OffsetsWF s) (hsorted : RowsSorted s)
    (hsize : s.data_.length < 2 ^ 30)
    (min_bin max_bin default_bin most_freq_bin : Nat) (missing_type : MissingType)
    (hmt : missing_type ≠ MissingType.NaN) (default_left : Bool) (threshold : Nat)
    (data_indices : Nat → Nat) (num_data : Int) (hn : 0 < num_data)
    (hvalid : ∀ i, i < num_data.toNat → data_indices i < s.num_data_) (lte gt : Nat → Nat)
    (hmax : max_bin < 256 ^ vb) (hth : threshold + min_bin < 256 ^ vb)
    (hmf : min_bin + most_freq_bin < 256 ^ vb) (hdf : min_bin + default_bin < 256 ^ vb)
    (hoff : most_freq_bin = 0 → 1 ≤ min_bin) :
    ∃ st, Split vb s min_bin max_bin default_bin most_freq_bin missing_type default_left
        threshold data_indices num_data lte gt = some st ∧
      firstN st.lte_indices st.lte_count = (firstN data_indices num_data.toNat).filter
        (fun idx => routeZeroNone min_bin default_bin most_freq_bin threshold missing_type
          default_left (lookupVal s idx min_bin max_bin
            (min_bin + most_freq_bin - (if most_freq_bin = 0 then 1 else 0)))) ∧
      firstN st.gt_indices st.gt_count = (firstN data_indices num_data.toNat).filter
        (fun idx => !routeZeroNone min_bin default_bin most_freq_bin threshold missing_type
          default_left (lookupVal s idx min_bin max_bin
            (min_bin + most_freq_bin - (if most_freq_bin = 0 then 1 else 0)))) := by
  obtain ⟨st, h, hl, hg, _⟩ := Split_run vb s hwf hsorted hsize min_bin max_bin default_bin
    most_freq_bin missing_type default_left threshold data_indices num_data hn hvalid lte gt
  have e2 := shiftedBin_eq vb hvb min_bin most_freq_bin most_freq_bin hmf hoff
  have hside := splitSide_ZeroNone vb hvb min_bin max_bin default_bin most_freq_bin missing_type
    hmt default_left threshold hth hmf hdf hoff
  simp only [hside, e2, castVal_of_lt vb max_bin hmax,
    castVal_of_lt vb min_bin (by omega)] at hl hg
  exact ⟨st, h, hl, hg⟩

theorem Split_ZeroNone_routing_witness :
    ∃ st, Split 1 exLookup 1 10 2 4 MissingType.Zero false 3 (fun i => i) 2 (fun _ => 7)
        (fun _ => 7) = some st ∧
      firstN st.lte_indices st.lte_count = [0] ∧ firstN st.gt_indices st.gt_count = [1] := by
  obtain ⟨st, h, hl, hg⟩ := Split_ZeroNone_routing 1 (by decide) exLookup (by decide)
    (by decide) (by decide) 1 10 2 4 MissingType.Zero (by decide) false 3 (fun i => i) 2 (by decide)
    (fun i hi => hi) (fun _ => 7) (fun _ => 7) (by decide) (by decide) (by decide) (by decide)
    (by decide)
  refine ⟨st, h, ?_, ?_⟩
  · rw [hl]; decide
  · rw [hg]; decide

theorem splitCategoricalSide_eq (min_bin most_freq_bin : Nat) (threshold : Nat → Nat)
    (num_threahold : Int) (ev : Nat) :
    decide (splitCategoricalSide min_bin most_freq_bin threshold num_threahold ev = Side.lte)
      = routeCategorical subU32 min_bin most_freq_bin threshold num_threahold ev := by
  simp only [splitCategoricalSide, routeCategorical]
  by_cases h1 : ev = most_freq_bin
  · simp only [h1, if_true]
    cases FindInBitset threshold num_threahold most_freq_bin <;> simp
  · simp only [h1, if_false]
    cases FindInBitset threshold num_threahold (subU32 ev min_bin) <;> simp

theorem subU32_eq_sub (a b : Nat) (hba : b ≤ a) (ha : a < 2 ^ 32) : subU32 a b = a - b := by
  unfold subU32
  have hb : b % 2 ^ 32 = b := Nat.mod_eq_of_lt (by omega)
  have e : a + 2 ^ 32 - b = (a - b) + 2 ^ 32 := by omega
  rw [Nat.mod_eq_of_lt ha, hb, e, Nat.add_mod_right, Nat.mod_eq_of_lt (by omega)]

/-- On a valid row of a finalized store the lookup value is inside the
window or is the default. -/
theorem lookupVal_range (s : MultiValDenseBin) (hwf : OffsetsWF s) (hsorted : RowsSorted s)
    (hsize : s.data_.length < 2 ^ 30)
    (r : Nat) (hr : r < s.num_data_) (min_bin max_bin d : Nat) :
    (min_bin ≤ lookupVal s r min_bin max_bin d ∧ lookupVal s r min_bin max_bin d ≤ max_bin)
      ∨ lookupVal s r min_bin max_bin d = d := by
  obtain ⟨v, hv, h⟩ := GetRawBin_spec s hwf hsorted hsize r hr min_bin max_bin d
  have e : lookupVal s r min_bin max_bin d = v := by simp [lookupVal, hv]
  rw [e]
  rcases h with ⟨_, h1, h2, _⟩ | ⟨_, h3⟩
  · exact Or.inl ⟨h1, h2⟩
  · exact Or.inr h3

/-- C6. Categorical routing of `SplitCategorical`: on a finalized store of
fewer than `2 ^ 30` values (the lookups stay inside `data_size_t`), for every
bitset, window and `most_freq_bin`, with `effective_value` the lookup the call makes (its
bin arguments converted to `VAL_T`), a row goes to `lte` iff `most_freq_bin`
is in the bitset when `effective_value = most_freq_bin`, and otherwise iff
`effective_value - min_bin` (a `uint32_t` difference) is in the bitset; the
other rows go to `gt`.  When the three bins fit in `VAL_T` the conversions
are the identity and the difference is the plain one. -/
theorem SplitCategorical_routing (vb : Nat) (s : MultiValDenseBin) (hwf : OffsetsWF s)
    (hsorted : RowsSorted s)
    (hsize : s.data_.length < 2 ^ 30) (min_bin max_bin most_freq_bin : Nat) (threshold : Nat → Nat)
    (num_threahold : Int) (data_indices : Nat → Nat) (num_data : Int) (hn : 0 < num_data)
    (hvalid : ∀ i, i < num_data.toNat → data_indices i < s.num_data_) (lte gt : Nat → Nat) :
    ∃ st, SplitCategorical vb s min_bin max_bin most_freq_bin threshold num_threahold
        data_indices num_data lte gt = some st ∧
      firstN st.lte_indices st.lte_count = (firstN data_indices num_data.toNat).filter
        (fun idx => routeCategorical subU32 min_bin most_freq_bin threshold num_threahold
          (lookupVal s idx (castVal vb min_bin) (castVal vb max_bin)
            (castVal vb most_freq_bin))) ∧
      firstN st.gt_indices st.gt_count = (firstN data_indices num_data.toNat).filter
        (fun idx => !routeCategorical subU32 min_bin most_freq_bin threshold num_threahold
          (lookupVal s idx (castVal vb min_bin) (castVal vb max_bin)
            (castVal vb most_freq_bin))) ∧
      (vb ≤ 4 → min_bin < 256 ^ vb → max_bin < 256 ^ vb → most_freq_bin < 256 ^ vb →
        firstN st.lte_indices st.lte_count = (firstN data_indices num_data.toNat).filter
          (fun idx => routeCategorical (fun a b => a - b) min_bin most_freq_bin threshold
            num_threahold (lookupVal s idx min_bin max_bin most_freq_bin)) ∧
        firstN st.gt_indices st.gt_count = (firstN data_indices num_data.toNat).filter
          (fun idx => !routeCategorical (fun a b => a - b) min_bin most_freq_bin threshold
            num_threahold (lookupVal s idx min_bin max_bin most_freq_bin))) := by
  obtain ⟨st, h, hl, hg, _⟩ := SplitCategorical_run vb s hwf hsorted hsize min_bin max_bin
    most_freq_bin threshold num_threahold data_indices num_data hn hvalid lte gt
  simp only [splitCategoricalSide_eq] at hl hg
  refine ⟨st, h, hl, hg, ?_⟩
  intro hvb hmin hmax hmf
  have h32 := pow256_le vb hvb
  have hagree : ∀ idx ∈ firstN data_indices num_data.toNat,
      routeCategorical subU32 min_bin most_freq_bin threshold num_threahold
          (lookupVal s idx (castVal vb min_bin) (castVal vb max_bin) (castVal vb most_freq_bin))
        = routeCategorical (fun a b => a - b) min_bin most_freq_bin threshold num_threahold
          (lookupVal s idx min_bin max_bin most_freq_bin) := by
    intro idx hidx
    simp only [firstN, List.mem_map, List.mem_range] at hidx
    obtain ⟨i, hi, rfl⟩ := hidx
    rw [castVal_of_lt vb _ hmin, castVal_of_lt vb _ hmax, castVal_of_lt vb _ hmf]
    simp only [routeCategorical]
    by_cases h1 : lookupVal s (data_indices i) min_bin max_bin most_freq_bin = most_freq_bin
    · simp only [h1, if_true]
    · simp only [h1, if_false]
      rcases lookupVal_range s hwf hsorted hsize _ (hvalid i hi) min_bin max_bin most_freq_bin
        with ⟨h2, h3⟩ | h2
      · rw [subU32_eq_sub _ _ h2 (by omega)]
      · exact absurd h2 h1
  have hagree2 : ∀ idx ∈ firstN data_indices num_data.toNat,
      (!routeCategorical subU32 min_bin most_freq_bin threshold num_threahold
          (lookupVal s idx (castVal vb min_bin) (castVal vb max_bin) (castVal vb most_freq_bin)))
        = !routeCategorical (fun a b => a - b) min_bin most_freq_bin threshold num_threahold
          (lookupVal s idx min_bin max_bin most_freq_bin) := by
    intro idx hidx
    rw [hagree idx hidx]
  rw [hl, hg]
  exact ⟨List.filter_congr hagree, List.filter_congr hagree2⟩

theorem SplitCategorical_routing_witness :
    ∃ st, SplitCategorical 1 exCat 0 10 7 exBits 1 (fun i => i) 2 (fun _ => 9) (fun _ => 9)
        = some st ∧
      firstN st.lte_indices st.lte_count = [0] ∧ firstN st.gt_indices st.gt_count = [1] := by
  obtain ⟨st, h, _, _, hplain⟩ := SplitCategorical_routing 1 exCat (by decide) (by decide) (by decide)
    0 10 7 exBits 1 (fun i => i) 2 (by decide) (fun i hi => hi) (fun _ => 9) (fun _ => 9)
  obtain ⟨hl, hg⟩ := hplain (by decide) (by decide) (by decide) (by decide)
  refine ⟨st, h, ?_, ?_⟩
  · rw [hl]; decide
  · rw [hg]; decide

/-! ### Building the CSR arrays -/

theorem forLoop_inv {σ : Type} (body : Nat → σ → Option σ) (Inv : Nat → σ → Prop) :
    ∀ n start st0, Inv start st0 →
      (∀ i st, start ≤ i → i < start + n → Inv i st →
        ∃ st1, body i st = some st1 ∧ Inv (i + 1) st1) →
      ∃ st1, forLoop body start n st0 = some st1 ∧ Inv (start + n) st1 := by
  intro n
  induction n with
  | zero => intro start st0 h0 _; exact ⟨st0, rfl, h0⟩
  | succ n ih =>
    intro start st0 h0 hstep
    obtain ⟨st1, hb, h1⟩ := hstep start st0 (le_refl _) (by omega) h0
    obtain ⟨st2, hl, h2⟩ := ih (start + 1) st1 h1
      (fun i st hi1 hi2 hinv => hstep i st (by omega) (by omega) hinv)
    refine ⟨st2, ?_, ?_⟩
    · simp only [forLoop, hb, Option.some_bind]; exact hl
    · have e : start + (n + 1) = start + 1 + n := by omega
      rw [e]; exact h2

theorem getD_set_ne (l : List Nat) (i j x : Nat) (h : i ≠ j) :
    (l.set i x).getD j 0 = l.getD j 0 := by
  simp [List.getD, List.getElem?_set_ne h]

theorem getD_set_eq (l : List Nat) (i x : Nat) (h : i < l.length) :
    (l.set i x).getD i 0 = x := by
  simp [List.getD, List.getElem?_set_self, h]

theorem vecSet_eq {α : Type} (v : List α) (i : Nat) (x : α) (h : i < v.length) :
    vecSet v i x = some (v.set i x) := by
  simp [vecSet, h]

theorem encodeLE_succ (k x : Nat) : encodeLE (k + 1) x = x % 256 :: encodeLE k (x / 256) := by
  unfold encodeLE
  rw [List.range_succ_eq_map, List.map_cons, List.map_map]
  simp only [pow_zero, Nat.div_one, List.cons.injEq, true_and]
  apply List.map_congr_left
  intro j _
  simp only [Function.comp, Nat.succ_eq_add_one, pow_succ, Nat.div_div_eq_div_mul]
  rw [Nat.mul_comm 256 (256 ^ j)]

theorem encodeLE_length (k x : Nat) : (encodeLE k x).length = k := by
  simp [encodeLE]

theorem decode_encodeLE : ∀ (k x : Nat), x < 256 ^ k → decodeLE (encodeLE k x) = x := by
  intro k
  induction k with
  | zero => intro x hx; simp at hx; subst hx; rfl
  | succ k ih =>
    intro x hx
    have hdiv : x / 256 < 256 ^ k := by
      rw [Nat.div_lt_iff_lt_mul (by decide)]
      rw [pow_succ] at hx
      exact hx
    rw [encodeLE_succ]
    simp only [decodeLE, List.foldr_cons]
    have := ih (x / 256) hdiv
    simp only [decodeLE] at this
    rw [this]
    omega

/-- Reading `k` bytes that hold the encoding of `x` gives `x` back. -/
theorem readLE_of_bytes (k : Nat) (memory : Nat → Nat) (off x : Nat) (hx : x < 256 ^ k)
    (hmem : ∀ j, j < k → memory (off + j) = (encodeLE k x).getD j 0) :
    readLE k memory off = x := by
  unfold readLE
  have : (List.range k).map (fun j => memory (off + j)) = encodeLE k x := by
    apply List.ext_getElem
    · simp [encodeLE_length]
    · intro j h1 h2
      simp only [List.length_map, List.length_range] at h1
      simp only [List.getElem_map, List.getElem_range]
      rw [hmem j h1, List.getD_eq_getElem _ _ h2]
  rw [this, decode_encodeLE k x hx]

theorem flatMap_encode_length (k : Nat) (v : List Nat) :
    (v.flatMap (encodeLE k)).length = k * v.length := by
  induction v with
  | nil => simp
  | cons x xs ih =>
    simp only [List.flatMap_cons, List.length_append, encodeLE_length, ih, List.length_cons]
    ring

theorem flatMap_encode_getD (k : Nat) :
    ∀ (v : List Nat) (i j : Nat), i < v.length → j < k →
      (v.flatMap (encodeLE k)).getD (k * i + j) 0 = (encodeLE k (v.getD i 0)).getD j 0 := by
  intro v
  induction v with
  | nil => intro i j hi _; simp at hi
  | cons x xs ih =>
    intro i j hi hj
    simp only [List.flatMap_cons]
    cases i with
    | zero =>
      simp only [Nat.mul_zero, Nat.zero_add]
      rw [List.getD_append _ _ _ _ (by rw [encodeLE_length]; exact hj)]
      simp
    | succ i =>
      have hlen : (encodeLE k x).length ≤ k * (i + 1) + j := by
        rw [encodeLE_length, Nat.mul_succ]; omega
      rw [List.getD_append_right _ _ _ _ hlen, encodeLE_length]
      have e : k * (i + 1) + j - k = k * i + j := by rw [Nat.mul_succ]; omega
      rw [e, ih i j (by simpa using hi) hj]
      simp

/-- A loop that assigns `v[i] = f i` for every index of a vector of length
`m` leaves the vector `[f 0, ..., f (m - 1)]`. -/
theorem fillLoop_eq (f : Nat → Nat) (m : Nat) (v : List Nat) (hv : v.length = m) :
    forLoop (fun i w => vecSet w i (f i)) 0 m v = some ((List.range m).map f) := by
  obtain ⟨w, hrun, hlen, hval⟩ := forLoop_inv (fun i w => vecSet w i (f i))
    (fun i w => w.length = m ∧ ∀ j, j < i → w.getD j 0 = f j) m 0 v
    ⟨hv, fun j hj => absurd hj (by omega)⟩
    (by
      intro i w _ hi ⟨hl, hw⟩
      simp only [Nat.zero_add] at hi
      refine ⟨w.set i (f i), vecSet_eq _ _ _ (by omega), by simp [hl], ?_⟩
      intro j hj
      rcases Nat.lt_or_ge j i with h | h
      · rw [getD_set_ne _ _ _ _ (by omega)]; exact hw j h
      · have : j = i := by omega
        subst this
        exact getD_set_eq _ _ _ (by omega))
  rw [hrun]
  congr 1
  apply List.ext_getElem
  · simp [hlen]
  · intro j h1 h2
    simp only [List.getElem_map, List.getElem_range]
    rw [← hval j (by omega), List.getD_eq_getElem _ _ h1]

theorem vecResize_length {α : Type} (v : List α) (n : Nat) (x : α) :
    (vecResize v n x).length = n := by
  simp only [vecResize, List.length_append, List.length_take, List.length_replicate]
  omega

theorem map_getD_range (l : List Nat) : (List.range l.length).map (fun i => l.getD i 0) = l := by
  apply List.ext_getElem
  · simp
  · intro j h1 h2
    simp only [List.getElem_map, List.getElem_range]
    exact List.getD_eq_getElem _ _ h2

theorem getD_take (l : List Nat) (k i : Nat) (hi : i < k) :
    (l.take k).getD i 0 = l.getD i 0 := by
  simp only [List.getD_eq_getElem?_getD, List.getElem?_take_of_lt hi]

theorem map_range_take (l : List Nat) (k : Nat) (hk : k ≤ l.length) (g : Nat → Nat)
    (hg : ∀ i, i < k → g i = l.getD i 0) : (List.range k).map g = l.take k := by
  apply List.ext_getElem
  · simp only [List.length_map, List.length_range, List.length_take]; omega
  · intro j h1 h2
    have hj : j < k := by simpa using h1
    simp only [List.getElem_map, List.getElem_range, List.getElem_take]
    rw [hg j hj]
    exact List.getD_eq_getElem _ _ (by omega)

/-- What a memory region that starts with the file of a store holds: the
row count at offset `0`, then the offsets, then the values. -/
theorem serialized_layout (ib vb : Nat) (s : MultiValDenseBin)
    (hwf : OffsetsWF s) (hfn : s.num_data_ < 256 ^ ib)
    (hfr : ∀ i, i < s.row_ptr_.length → s.row_ptr_.getD i 0 < 256 ^ ib)
    (hfd : ∀ i, i < s.data_.length → s.data_.getD i 0 < 256 ^ vb) (memory : Nat → Nat)
    (hmem : ∀ i, i < (encodeLE ib s.num_data_ ++ s.row_ptr_.flatMap (encodeLE ib)
        ++ s.data_.flatMap (encodeLE vb)).length →
      memory i = (encodeLE ib s.num_data_ ++ s.row_ptr_.flatMap (encodeLE ib)
        ++ s.data_.flatMap (encodeLE vb)).getD i 0) :
    readLE ib memory 0 = s.num_data_ ∧
    (∀ i, i < s.num_data_ + 1 → readLE ib memory (ib + ib * i) = s.row_ptr_.getD i 0) ∧
    (∀ i, i < s.data_.length →
      readLE vb memory (ib + ib * (s.num_data_ + 1) + vb * i) = s.data_.getD i 0) := by
  have hlen := hwf.1
  have hL1 : (encodeLE ib s.num_data_).length = ib := encodeLE_length _ _
  have hL2 : (s.row_ptr_.flatMap (encodeLE ib)).length = ib * (s.num_data_ + 1) := by
    rw [flatMap_encode_length, hlen]
  have hL3 : (s.data_.flatMap (encodeLE vb)).length = vb * s.data_.length :=
    flatMap_encode_length _ _
  have hnum : readLE ib memory 0 = s.num_data_ := by
    apply readLE_of_bytes ib memory 0 _ hfn
    intro j hj
    rw [hmem _ (by simp only [List.length_append, hL1]; omega), Nat.zero_add,
      List.append_assoc, List.getD_append _ _ _ _ (by omega)]
  have hrow : ∀ i, i < s.num_data_ + 1 →
      readLE ib memory (ib + ib * i) = s.row_ptr_.getD i 0 := by
    intro i hi
    apply readLE_of_bytes ib memory _ _ (hfr i (by omega))
    intro j hj
    have hbound : ib * i + j < ib * (s.num_data_ + 1) := by
      calc ib * i + j < ib * i + ib := by omega
        _ = ib * (i + 1) := by ring
        _ ≤ ib * (s.num_data_ + 1) := Nat.mul_le_mul_left _ (by omega)
    rw [hmem _ (by simp only [List.length_append, hL1, hL2]; omega),
      List.getD_append _ _ _ _ (by simp only [List.length_append, hL1, hL2]; omega),
      List.getD_append_right _ _ _ _ (by omega), hL1]
    have e : ib + ib * i + j - ib = ib * i + j := by omega
    rw [e, flatMap_encode_getD ib _ i j (by omega) hj]
  have hdat : ∀ i, i < s.data_.length →
      readLE vb memory (ib + ib * (s.num_data_ + 1) + vb * i) = s.data_.getD i 0 := by
    intro i hi
    apply readLE_of_bytes vb memory _ _ (hfd i hi)
    intro j hj
    have hbound : vb * i + j < vb * s.data_.length := by
      calc vb * i + j < vb * i + vb := by omega
        _ = vb * (i + 1) := by ring
        _ ≤ vb * s.data_.length := Nat.mul_le_mul_left _ (by omega)
    rw [hmem _ (by simp only [List.length_append, hL1, hL2, hL3]; omega),
      List.getD_append_right _ _ _ _ (by simp only [List.length_append, hL1, hL2]; omega)]
    simp only [List.length_append, hL1, hL2]
    have e : ib + ib * (s.num_data_ + 1) + vb * i + j - (ib + ib * (s.num_data_ + 1))
        = vb * i + j := by omega
    rw [e, flatMap_encode_getD vb _ i j hi hj]
  exact ⟨hnum, hrow, hdat⟩

/-- The bytes `SaveBinaryToFile` writes for a store whose offsets vector has
`num_data_ + 1` entries. -/
theorem SaveBinaryToFile_eq (ib vb : Nat) (s : MultiValDenseBin)
    (hlen : s.row_ptr_.length = s.num_data_ + 1) :
    SaveBinaryToFile ib vb s = some (encodeLE ib s.num_data_
      ++ s.row_ptr_.flatMap (encodeLE ib) ++ s.data_.flatMap (encodeLE vb)) := by
  have htake : s.row_ptr_.take (s.num_data_ + 1) = s.row_ptr_ := by
    rw [← hlen]; exact List.take_length _
  have htake2 : s.data_.take s.data_.length = s.data_ := List.take_length _
  simp only [SaveBinaryToFile, writeArray, hlen, le_refl, if_true, htake, htake2,
    Option.some_bind, Option.map_some']

/-- The round trip of the serialization does hold once the target's offsets
vector already has `num_data_ + 1` entries: for a store with well-formed
offsets whose integers fit their widths, the file is written, and loading it
without remap into such a target gives back `row_ptr_` and `data_`. -/
theorem LoadFromMemory_roundtrip_sized (ib vb : Nat) (s tgt : MultiValDenseBin)
    (hwf : OffsetsWF s) (hfn : s.num_data_ < 256 ^ ib)
    (hfr : ∀ i, i < s.row_ptr_.length → s.row_ptr_.getD i 0 < 256 ^ ib)
    (hfd : ∀ i, i < s.data_.length → s.data_.getD i 0 < 256 ^ vb)
    (htn : tgt.num_data_ = s.num_data_) (hrl : tgt.row_ptr_.length = s.num_data_ + 1) :
    ∃ bytes, SaveBinaryToFile ib vb s = some bytes ∧
      ∀ memory : Nat → Nat, (∀ i, i < bytes.length → memory i = bytes.getD i 0) →
        ∃ t, LoadFromMemory ib vb tgt memory [] = some t ∧
          t.num_data_ = s.num_data_ ∧ t.row_ptr_ = s.row_ptr_ ∧ t.data_ = s.data_ := by
  have hlen := hwf.1
  have htake : s.row_ptr_.take (s.num_data_ + 1) = s.row_ptr_ := by
    rw [← hlen]; exact List.take_length _
  have htake2 : s.data_.take s.data_.length = s.data_ := List.take_length _
  refine ⟨encodeLE ib s.num_data_ ++ s.row_ptr_.flatMap (encodeLE ib)
    ++ s.data_.flatMap (encodeLE vb), ?_, ?_⟩
  · simp only [SaveBinaryToFile, writeArray, hlen, le_refl, if_true, htake, htake2,
      Option.some_bind, Option.map_some']
  · intro memory hmem
    obtain ⟨hnum, hrow, hdat⟩ := serialized_layout ib vb s hwf hfn hfr hfd memory hmem
    have hrp : (List.range (s.num_data_ + 1)).map (fun i => readLE ib memory (ib + ib * i))
        = s.row_ptr_ := by
      rw [← map_getD_range s.row_ptr_, hlen]
      apply List.map_congr_left
      intro i hi
      rw [hrow i (List.mem_range.1 hi)]
    have hdata : (List.range s.data_.length).map
        (fun i => readLE vb memory (ib + ib * (s.num_data_ + 1) + vb * i)) = s.data_ := by
      rw [← map_getD_range s.data_]
      simp only [List.length_map, List.length_range]
      apply List.map_congr_left
      intro i hi
      rw [hdat i (List.mem_range.1 hi)]
    have hlast : s.row_ptr_[s.num_data_]? = some s.data_.length := by
      rw [getElem?_eq_some_getD _ _ 0 (by omega), hwf.2.2.2]
    refine ⟨{ tgt with row_ptr_ := s.row_ptr_, data_ := s.data_ }, ?_, htn, rfl, rfl⟩
    simp only [LoadFromMemory, List.isEmpty_nil, not_true_eq_false, if_false, htn, hnum,
      fillLoop_eq _ _ tgt.row_ptr_ hrl, hrp, Option.some_bind, hlast,
      fillLoop_eq _ _ _ (vecResize_length tgt.data_ s.data_.length 0), hdata, Option.map_some']

/-- C9. Serialization round trip, at a freshly constructed target: the
branch of `LoadFromMemory` without remap assigns `row_ptr_[i]` for
`i = 0 .. num_data_` and never sizes `row_ptr_`, which the constructor leaves
empty; on every freshly constructed store, for every memory content, the
first assignment is outside the vector and no store is loaded.  The instance:
the file of the one-row store `exNaN` is written, and loading it into
`MultiValDenseBin(1)` is undefined. -/
theorem LoadFromMemory_fresh_undefined :
    (∀ (ib vb n : Nat) (memory : Nat → Nat),
      LoadFromMemory ib vb (MultiValDenseBin.ctor n) memory [] = none) ∧
    SaveBinaryToFile 4 1 exNaN = some [1, 0, 0, 0, 0, 0, 0, 0, 1, 0, 0, 0, 10] ∧
    LoadFromMemory 4 1 (MultiValDenseBin.ctor 1)
      (memoryOf [1, 0, 0, 0, 0, 0, 0, 0, 1, 0, 0, 0, 10]) [] = none := by
  have hgen : ∀ (ib vb n : Nat) (memory : Nat → Nat),
      LoadFromMemory ib vb (MultiValDenseBin.ctor n) memory [] = none := by
    intro ib vb n memory
    simp [LoadFromMemory, MultiValDenseBin.ctor, forLoop, vecSet]
  exact ⟨hgen, by decide, hgen _ _ _ _⟩

/-! ### Remapped load -/

theorem forLoop_congr {σ : Type} (f g : Nat → σ → Option σ) :
    ∀ n start st, (∀ i st1, start ≤ i → i < start + n → f i st1 = g i st1) →
      forLoop f start n st = forLoop g start n st := by
  intro n
  induction n with
  | zero => intro start st _; rfl
  | succ n ih =>
    intro start st h
    simp only [forLoop, h start st (le_refl _) (by omega)]
    congr 1
    funext st1
    exact ih (start + 1) st1 (fun i st2 h1 h2 => h i st2 (by omega) (by omega))

/-- The specification of `GetBin`, as `GetRawBin_spec`: a value found in the
window is returned shifted by `- min_bin + offset` and converted to `VAL_T`. -/
theorem GetBin_spec (vb : Nat) (s : MultiValDenseBin) (hwf : OffsetsWF s) (hsorted : RowsSorted s)
    (hsize : s.data_.length < 2 ^ 30)
    (r : Nat) (hr : r < s.num_data_) (min_bin max_bin d : Nat) (offset : Int) :
    ∃ g, GetBin vb s r min_bin max_bin d offset = some g ∧
      ((∃ x, x ∈ rowSlice s r ∧ min_bin ≤ x ∧ x ≤ max_bin ∧
          (∀ u ∈ rowSlice s r, min_bin ≤ u → u ≤ max_bin → x ≤ u) ∧
          g = castValInt vb ((x : Int) - (min_bin : Int) + offset)) ∨
       ((∀ u ∈ rowSlice s r, ¬ (min_bin ≤ u ∧ u ≤ max_bin)) ∧ g = d)) := by
  have hab : s.row_ptr_.getD r 0 ≤ s.row_ptr_.getD (r + 1) 0 := hwf.2.2.1 r hr
  have hb : s.row_ptr_.getD (r + 1) 0 ≤ s.data_.length := offsets_le_length s hwf _ (by omega)
  have hs := slice_sorted_index s.data_ _ _ hab hb (hsorted r hr)
  obtain ⟨p, hp, hap, hpb, hlo, hhi⟩ := lowerBoundLoop_spec s.data_ min_bin _ _ hb (by omega) hs
    (s.row_ptr_.getD (r + 1) 0 - s.row_ptr_.getD r 0) (s.row_ptr_.getD r 0)
    (s.row_ptr_.getD (r + 1) 0) (le_refl _) (le_refl _) hab (le_refl _)
    (fun i h1 h2 => by omega) (fun i h1 h2 => by omega)
  have hmem := mem_slice_iff s.data_ _ _ hab hb
  simp only [GetBin, RowPtr_eq s hwf r (by omega), RowPtr_eq s hwf (r + 1) (by omega),
    Option.some_bind, hp]
  by_cases hlt : p < s.row_ptr_.getD (r + 1) 0
  · simp only [hlt, if_true, getElem?_eq_some_getD s.data_ p 0 (by omega), Option.some_bind]
    by_cases hin : min_bin ≤ s.data_.getD p 0 ∧ s.data_.getD p 0 ≤ max_bin
    · refine ⟨_, by simp only [hin, and_self, if_true],
        Or.inl ⟨s.data_.getD p 0, ?_, hin.1, hin.2, ?_, rfl⟩⟩
      · exact (hmem _).2 ⟨p, hap, hlt, rfl⟩
      · intro u hu h1 _
        obtain ⟨j, hj1, hj2, rfl⟩ := (hmem u).1 hu
        rcases Nat.lt_or_ge j p with h | h
        · exact absurd (hlo j hj1 h) (by omega)
        · exact hs p j hap h hj2
    · refine ⟨d, by simp only [hin, if_false], Or.inr ⟨?_, rfl⟩⟩
      intro u hu ⟨h1, h2⟩
      obtain ⟨j, hj1, hj2, rfl⟩ := (hmem u).1 hu
      rcases Nat.lt_or_ge j p with h | h
      · exact absurd (hlo j hj1 h) (by omega)
      · have h3 := hs p j hap h hj2
        have h4 := hhi p (le_refl _) hlt
        exact hin ⟨h4, by omega⟩
  · refine ⟨d, by simp only [hlt, if_false], Or.inr ⟨?_, rfl⟩⟩
    intro u hu ⟨h1, _⟩
    obtain ⟨j, hj1, hj2, rfl⟩ := (hmem u).1 hu
    exact absurd (hlo j hj1 (by omega)) (by omega)

theorem castValInt_of_fit (vb x min_bin off : Nat) (hx : min_bin ≤ x)
    (hfit : x - min_bin + off < 256 ^ vb) :
    castValInt vb ((x : Int) - (min_bin : Int) + (off : Int)) = x - min_bin + off := by
  unfold castValInt
  have e : (x : Int) - (min_bin : Int) + (off : Int) = ((x - min_bin + off : Nat) : Int) := by
    omega
  rw [e, ← Int.natCast_mod, Int.toNat_ofNat, Nat.mod_eq_of_lt hfit]

/-- The value of `Get` on a valid row of a finalized store when the three
bins of the iterator fit in `VAL_T`: a shifted present value or
`most_freq_bin`. -/
theorem Iterator_Get_spec (vb : Nat) (s : MultiValDenseBin) (hwf : OffsetsWF s)
    (hsorted : RowsSorted s)
    (hsize : s.data_.length < 2 ^ 30)
    (min_bin max_bin most_freq_bin : Nat) (hmin : min_bin < 256 ^ vb)
    (hmax : max_bin < 256 ^ vb) (hmf : most_freq_bin < 256 ^ vb) (r : Nat)
    (hr : r < s.num_data_) :
    ∃ g, (GetIterator vb s min_bin max_bin most_freq_bin).Get vb r = some g ∧
      ((∃ x, x ∈ rowSlice s r ∧ min_bin ≤ x ∧ x ≤ max_bin ∧
          (∀ u ∈ rowSlice s r, min_bin ≤ u → u ≤ max_bin → x ≤ u) ∧
          g = castValInt vb ((x : Int) - (min_bin : Int)
            + ((if most_freq_bin = 0 then 1 else 0 : Nat) : Int))) ∨
       ((∀ u ∈ rowSlice s r, ¬ (min_bin ≤ u ∧ u ≤ max_bin)) ∧ g = most_freq_bin)) := by
  have h := GetBin_spec vb s hwf hsorted hsize r hr min_bin max_bin most_freq_bin
    ((if most_freq_bin = 0 then 1 else 0 : Nat) : Int)
  simpa only [MultiValDenseBinIterator.Get, GetIterator, MultiValDenseBinIterator.ctor,
    castVal_of_lt vb _ hmin, castVal_of_lt vb _ hmax, castVal_of_lt vb _ hmf] using h

/-- C12. Row iterator `Get`: for the iterator made by
`GetIterator(min_bin, max_bin, most_freq_bin)` on a finalized store of fewer
than `2 ^ 30` values (the midpoint of the search stays inside
`data_size_t`), with
`offset = 1` when `most_freq_bin = 0` and `0` otherwise, and values fitting
`VAL_T` (the three bins, and the largest value `max_bin - min_bin + offset`
the iterator can return), for every valid row: if `v` is the smallest stored
value of the row in `[min_bin, max_bin]`, `Get(row)` returns
`v - min_bin + offset`; if the row stores no value in the window, `Get(row)`
returns `most_freq_bin`, no offset applied. -/
theorem Iterator_Get_correct (vb : Nat) (s : MultiValDenseBin) (hwf : OffsetsWF s)
    (hsorted : RowsSorted s)
    (hsize : s.data_.length < 2 ^ 30)
    (min_bin max_bin most_freq_bin : Nat) (hmin : min_bin < 256 ^ vb)
    (hmax : max_bin < 256 ^ vb) (hmf : most_freq_bin < 256 ^ vb)
    (hret : max_bin - min_bin + (if most_freq_bin = 0 then 1 else 0) < 256 ^ vb)
    (r : Nat) (hr : r < s.num_data_) :
    (∀ v, v ∈ rowSlice s r → min_bin ≤ v → v ≤ max_bin →
        (∀ u ∈ rowSlice s r, min_bin ≤ u → u ≤ max_bin → v ≤ u) →
        (GetIterator vb s min_bin max_bin most_freq_bin).Get vb r
          = some (v - min_bin + (if most_freq_bin = 0 then 1 else 0))) ∧
    ((∀ u ∈ rowSlice s r, ¬ (min_bin ≤ u ∧ u ≤ max_bin)) →
        (GetIterator vb s min_bin max_bin most_freq_bin).Get vb r = some most_freq_bin) := by
  obtain ⟨g, hg, hspec⟩ := Iterator_Get_spec vb s hwf hsorted hsize min_bin max_bin most_freq_bin
    hmin hmax hmf r hr
  constructor
  · intro v hv h1 h2 hleast
    rcases hspec with ⟨x, hx, hx1, hx2, hxl, rfl⟩ | ⟨hnone, _⟩
    · have hxv : x = v := Nat.le_antisymm (hxl v hv h1 h2) (hleast x hx hx1 hx2)
      subst hxv
      rw [hg, castValInt_of_fit vb x min_bin _ hx1 (by
        have : x - min_bin ≤ max_bin - min_bin := Nat.sub_le_sub_right hx2 _
        omega)]
    · exact absurd ⟨h1, h2⟩ (hnone v hv)
  · intro hnone
    rcases hspec with ⟨x, hx, hx1, hx2, _, _⟩ | ⟨_, rfl⟩
    · exact absurd ⟨hx1, hx2⟩ (hnone x hx)
    · exact hg

theorem Iterator_Get_correct_witness :
    (GetIterator 1 exLookup 1 10 0).Get 1 1 = some (3 - 1 + 1) ∧
    (GetIterator 1 exLookup 4 6 2).Get 1 1 = some 2 :=
  ⟨(Iterator_Get_correct 1 exLookup (by decide) (by decide) (by decide) 1 10 0 (by decide) (by decide)
      (by decide) (by decide) 1 (by decide)).1 3 (by decide) (by decide) (by decide) (by decide),
   (Iterator_Get_correct 1 exLookup (by decide) (by decide) (by decide) 4 6 2 (by decide) (by decide)
      (by decide) (by decide) 1 (by decide)).2 (by decide)⟩

/-- C13, as stated, fails: with `most_freq_bin = 0` the iterator over the
row `{3, 7, 9}` and the window `[1, 10]` finds `v = 3` and returns
`(3 - 1) + 1 = 3`, not `(3 - 1) - 1 = 1`. -/
theorem Get_offset_subtract_counterexample :
    OffsetsWF exLookup ∧ RowsSorted exLookup ∧ rowSlice exLookup 1 = [3, 7, 9] ∧
    (GetIterator 1 exLookup 1 10 0).Get 1 1 = some 3 ∧
    ¬ ((GetIterator 1 exLookup 1 10 0).Get 1 1 = some ((3 - 1) - 1)) := by
  decide

/-- C13, amended. Offset compensation direction: when the most-frequent bin
id is `0` (`offset = 1`), the iterator compensates by adding `1` when
returning a present value: on a finalized store of fewer than `2 ^ 30`
values (the midpoint of the search stays inside `data_size_t`), with
`min_bin` and `max_bin` fitting `VAL_T` and `max_bin - min_bin + 1` fitting
too, for every valid row
whose smallest stored value in `[min_bin, max_bin]` is `v`, `Get(row)`
returns `(v - min_bin) + 1`. -/
theorem Get_offset_adds_one (vb : Nat) (s : MultiValDenseBin) (hwf : OffsetsWF s)
    (hsorted : RowsSorted s)
    (hsize : s.data_.length < 2 ^ 30) (min_bin max_bin : Nat) (hmin : min_bin < 256 ^ vb)
    (hmax : max_bin < 256 ^ vb) (hret : max_bin - min_bin + 1 < 256 ^ vb)
    (r : Nat) (hr : r < s.num_data_) (v : Nat) (hv : v ∈ rowSlice s r) (h1 : min_bin ≤ v)
    (h2 : v ≤ max_bin) (hleast : ∀ u ∈ rowSlice s r, min_bin ≤ u → u ≤ max_bin → v ≤ u) :
    (GetIterator vb s min_bin max_bin 0).Get vb r = some ((v - min_bin) + 1) := by
  obtain ⟨g, hg, hspec⟩ := Iterator_Get_spec vb s hwf hsorted hsize min_bin max_bin 0
    hmin hmax (Nat.pos_pow_of_pos _ (by decide)) r hr
  rcases hspec with ⟨x, hx, hx1, hx2, hxl, hgx⟩ | ⟨hnone, _⟩
  · have hxv : x = v := Nat.le_antisymm (hxl v hv h1 h2) (hleast x hx hx1 hx2)
    subst hxv
    simp only [if_true] at hgx
    rw [hg, hgx, castValInt_of_fit vb x min_bin 1 hx1 (by
      have : x - min_bin ≤ max_bin - min_bin := Nat.sub_le_sub_right hx2 _
      omega)]
  · exact absurd ⟨h1, h2⟩ (hnone v hv)

theorem Get_offset_adds_one_witness :
    (GetIterator 1 exLookup 1 10 0).Get 1 1 = some ((3 - 1) + 1) :=
  Get_offset_adds_one 1 exLookup (by decide) (by decide) (by decide) 1 10 (by decide) (by decide) (by decide)
    1 (by decide) 3 (by decide) (by decide) (by decide) (by decide)

/-! ### Histogram variants -/

/-- C17. Index-array and full-range histogram variants agree: for every
store, range `[start, end)`, gradient and hessian arrays and output buffer,
with an index array such that `data_indices[i] = i` for every `i` in
`[start, end)`, the index-array overload gives exactly the result of the
full-range overload, in the gradient+hessian form and in the gradient-only
form. -/
theorem index_array_agrees_with_range (s : MultiValDenseBin) (data_indices : Nat → Nat)
    (start end_ : Nat) (hid : ∀ i, start ≤ i → i < end_ → data_indices i = i)
    (ordered_gradients ordered_hessians : Nat → ℚ) (out : Nat → ℚ) :
    ConstructHistogram s data_indices start end_ ordered_gradients ordered_hessians out
      = ConstructHistogramRange s start end_ ordered_gradients ordered_hessians out ∧
    ConstructHistogramGrad s data_indices start end_ ordered_gradients out
      = ConstructHistogramRangeGrad s start end_ ordered_gradients out := by
  have hpre : ∀ i, start ≤ i → i < start + (end_ - start) →
      prefetchRow s (decide (prefetch_size + i < end_)) (data_indices (i + prefetch_size))
        = prefetchRow s (decide (prefetch_size + i < end_)) (i + prefetch_size) := by
    intro i h1 _
    by_cases hlt : prefetch_size + i < end_
    · rw [hid (i + prefetch_size) (by omega) (by omega)]
    · simp only [prefetchRow, hlt, decide_False, Bool.false_eq_true, if_false]
  constructor
  · unfold ConstructHistogram ConstructHistogramRange
    apply forLoop_congr
    intro i o h1 h2
    rw [hpre i h1 h2, hid i h1 (by omega)]
  · unfold ConstructHistogramGrad ConstructHistogramRangeGrad
    apply forLoop_congr
    intro i o h1 h2
    rw [hpre i h1 h2, hid i h1 (by omega)]

theorem index_array_agrees_with_range_witness :
    ConstructHistogram exHist (fun i => if i < 2 then i else 7) 0 2
        (fun i => if i = 0 then 1 else 2) (fun _ => 1 / 2) (fun _ => 0)
      = ConstructHistogramRange exHist 0 2 (fun i => if i = 0 then 1 else 2) (fun _ => 1 / 2)
          (fun _ => 0) ∧
    ConstructHistogramGrad exHist (fun i => if i < 2 then i else 7) 0 2
        (fun i => if i = 0 then 1 else 2) (fun _ => 0)
      = ConstructHistogramRangeGrad exHist 0 2 (fun i => if i = 0 then 1 else 2) (fun _ => 0) :=
  index_array_agrees_with_range exHist (fun i => if i < 2 then i else 7) 0 2
    (fun i _ h => by show (if i < 2 then i else 7) = i; rw [if_pos h])
    (fun i => if i = 0 then 1 else 2) (fun _ => 1 / 2) (fun _ => 0)

/-! ### Empty split -/

/-- C15. Empty split is a no-op: for every store and every choice of the
other arguments, `Split` and `SplitCategorical` called with `num_data ≤ 0`
return normally with the count `0` and leave `lte_indices` and `gt_indices`
as they were (`data_indices` is only ever read). -/
theorem Split_empty_noop (vb : Nat) (s : MultiValDenseBin) (num_data : Int) (hn : num_data ≤ 0)
    (data_indices lte gt : Nat → Nat) :
    (∀ min_bin max_bin default_bin most_freq_bin missing_type default_left threshold,
      ∃ st, Split vb s min_bin max_bin default_bin most_freq_bin missing_type default_left
          threshold data_indices num_data lte gt = some st ∧
        st.lte_count = 0 ∧ st.lte_indices = lte ∧ st.gt_indices = gt) ∧
    (∀ min_bin max_bin most_freq_bin threshold num_threahold,
      ∃ st, SplitCategorical vb s min_bin max_bin most_freq_bin threshold num_threahold
          data_indices num_data lte gt = some st ∧
        st.lte_count = 0 ∧ st.lte_indices = lte ∧ st.gt_indices = gt) := by
  constructor
  · intro min_bin max_bin default_bin most_freq_bin missing_type default_left threshold
    refine ⟨⟨lte, gt, 0, 0⟩, ?_, rfl, rfl, rfl⟩
    simp only [Split, if_pos hn]
  · intro min_bin max_bin most_freq_bin threshold num_threahold
    refine ⟨⟨lte, gt, 0, 0⟩, ?_, rfl, rfl, rfl⟩
    simp only [SplitCategorical, if_pos hn]

theorem Split_empty_noop_witness :
    (∃ st, Split 1 (MultiValDenseBin.ctor 0) 1 10 0 4 MissingType.NaN true 3 (fun _ => 0) (-2)
        (fun _ => 7) (fun _ => 8) = some st ∧
      st.lte_count = 0 ∧ st.lte_indices = (fun _ => 7) ∧ st.gt_indices = (fun _ => 8)) ∧
    (∃ st, SplitCategorical 1 (MultiValDenseBin.ctor 0) 1 10 4 exBits 1 (fun _ => 0) 0
        (fun _ => 7) (fun _ => 8) = some st ∧
      st.lte_count = 0 ∧ st.lte_indices = (fun _ => 7) ∧ st.gt_indices = (fun _ => 8)) :=
  ⟨(Split_empty_noop 1 (MultiValDenseBin.ctor 0) (-2) (by decide) (fun _ => 0) (fun _ => 7)
      (fun _ => 8)).1 1 10 0 4 MissingType.NaN true 3,
   (Split_empty_noop 1 (MultiValDenseBin.ctor 0) 0 (by decide) (fun _ => 0) (fun _ => 7)
      (fun _ => 8)).2 1 10 4 exBits 1⟩

/-! ### Load without validation -/

/-- C16, as stated, fails: the file of the two-row store `exLookup` (header
row count `2`) is loaded without remap into the one-row store `exNaN`
(configured row count `1`); the call returns normally and the store is
populated from the mismatching buffer. -/
theorem LoadFromMemory_mismatch_counterexample :
    SaveBinaryToFile 4 1 exLookup
      = some [2, 0, 0, 0, 0, 0, 0, 0, 1, 0, 0, 0, 4, 0, 0, 0, 1, 3, 7, 9] ∧
    readLE 4 (memoryOf [2, 0, 0, 0, 0, 0, 0, 0, 1, 0, 0, 0, 4, 0, 0, 0, 1, 3, 7, 9]) 0 = 2 ∧
    exNaN.num_data_ = 1 ∧
    LoadFromMemory 4 1 exNaN
        (memoryOf [2, 0, 0, 0, 0, 0, 0, 0, 1, 0, 0, 0, 4, 0, 0, 0, 1, 3, 7, 9]) []
      = some { num_data_ := 1, data_ := [1], row_ptr_ := [0, 1], push_buf_ := [] } := by
  decide

/-- C16, amended. A row-count mismatch is accepted: when the buffer holds the
file of a store `f` with well-formed offsets (its row count and offsets
non-negative as `ib`-byte signed integers, its values fitting `VAL_T`) and
the target is configured with fewer rows than `f` and has an offsets vector
of `num_data_ + 1` entries, the header row count read from the buffer is that
of `f`, not the configured one, and `LoadFromMemory` without remap still
returns normally and populates the store: the row count stays the configured
one, `row_ptr_` becomes the first `num_data_ + 1` offsets of `f`, `data_` the
values of `f` below `row_ptr_[num_data_]`, so every row of the target holds
the slice of the same row of `f`. -/
theorem LoadFromMemory_mismatch_accepted (ib vb : Nat) (f tgt : MultiValDenseBin)
    (hwf : OffsetsWF f) (hfn : 2 * f.num_data_ < 256 ^ ib)
    (hfr : ∀ i, i < f.row_ptr_.length → 2 * f.row_ptr_.getD i 0 < 256 ^ ib)
    (hfd : ∀ i, i < f.data_.length → f.data_.getD i 0 < 256 ^ vb)
    (hmis : tgt.num_data_ < f.num_data_) (hrl : tgt.row_ptr_.length = tgt.num_data_ + 1) :
    ∃ bytes, SaveBinaryToFile ib vb f = some bytes ∧
      ∀ memory : Nat → Nat, (∀ i, i < bytes.length → memory i = bytes.getD i 0) →
        readLE ib memory 0 = f.num_data_ ∧ readLE ib memory 0 ≠ tgt.num_data_ ∧
        ∃ t, LoadFromMemory ib vb tgt memory [] = some t ∧ t.num_data_ = tgt.num_data_ ∧
          t.row_ptr_ = f.row_ptr_.take (tgt.num_data_ + 1) ∧
          t.data_ = f.data_.take (f.row_ptr_.getD tgt.num_data_ 0) ∧
          ∀ r, r < tgt.num_data_ → rowSlice t r = rowSlice f r := by
  refine ⟨_, SaveBinaryToFile_eq ib vb f hwf.1, ?_⟩
  intro memory hmem
  obtain ⟨hnum, hrow, hdat⟩ := serialized_layout ib vb f hwf (by omega)
    (fun i hi => by have := hfr i hi; omega) hfd memory hmem
  have hlen := hwf.1
  have hL : f.row_ptr_.getD tgt.num_data_ 0 ≤ f.data_.length :=
    offsets_le_length f hwf _ (by omega)
  have hrp : (List.range (tgt.num_data_ + 1)).map (fun i => readLE ib memory (ib + ib * i))
      = f.row_ptr_.take (tgt.num_data_ + 1) :=
    map_range_take f.row_ptr_ _ (by omega) _ (fun i hi => hrow i (by omega))
  have hdata : (List.range (f.row_ptr_.getD tgt.num_data_ 0)).map
      (fun i => readLE vb memory (ib + ib * (f.num_data_ + 1) + vb * i))
      = f.data_.take (f.row_ptr_.getD tgt.num_data_ 0) :=
    map_range_take f.data_ _ hL _ (fun i hi => hdat i (by omega))
  have hlast : (f.row_ptr_.take (tgt.num_data_ + 1))[tgt.num_data_]?
      = some (f.row_ptr_.getD tgt.num_data_ 0) := by
    rw [List.getElem?_take_of_lt (by omega)]
    exact getElem?_eq_some_getD _ _ _ (by omega)
  refine ⟨hnum, by rw [hnum]; omega,
    { tgt with row_ptr_ := f.row_ptr_.take (tgt.num_data_ + 1),
               data_ := f.data_.take (f.row_ptr_.getD tgt.num_data_ 0) }, ?_, rfl, rfl, rfl, ?_⟩
  · simp only [LoadFromMemory, List.isEmpty_nil, not_true_eq_false, if_false, hnum,
      fillLoop_eq _ _ tgt.row_ptr_ hrl, hrp, Option.some_bind, hlast,
      fillLoop_eq _ _ _ (vecResize_length tgt.data_ _ 0), hdata, Option.map_some']
  · intro r hr
    have e1 : (f.row_ptr_.take (tgt.num_data_ + 1)).getD r 0 = f.row_ptr_.getD r 0 :=
      getD_take f.row_ptr_ _ r (by omega)
    have e2 : (f.row_ptr_.take (tgt.num_data_ + 1)).getD (r + 1) 0 = f.row_ptr_.getD (r + 1) 0 :=
      getD_take f.row_ptr_ _ (r + 1) (by omega)
    have hle : f.row_ptr_.getD (r + 1) 0 ≤ f.row_ptr_.getD tgt.num_data_ 0 :=
      offsets_mono f hwf _ (by omega) _ (by omega)
    show ((f.data_.take (f.row_ptr_.getD tgt.num_data_ 0)).drop
        ((f.row_ptr_.take (tgt.num_data_ + 1)).getD r 0)).take
        ((f.row_ptr_.take (tgt.num_data_ + 1)).getD (r + 1) 0
          - (f.row_ptr_.take (tgt.num_data_ + 1)).getD r 0)
      = (f.data_.drop (f.row_ptr_.getD r 0)).take
        (f.row_ptr_.getD (r + 1) 0 - f.row_ptr_.getD r 0)
    rw [e1, e2, List.drop_take, List.take_take]
    congr 1
    omega

theorem LoadFromMemory_mismatch_accepted_witness :
    ∃ bytes, SaveBinaryToFile 4 1 exLookup = some bytes ∧
      ∀ memory : Nat → Nat, (∀ i, i < bytes.length → memory i = bytes.getD i 0) →
        readLE 4 memory 0 = exLookup.num_data_ ∧ readLE 4 memory 0 ≠ exNaN.num_data_ ∧
        ∃ t, LoadFromMemory 4 1 exNaN memory [] = some t ∧ t.num_data_ = exNaN.num_data_ ∧
          t.row_ptr_ = exLookup.row_ptr_.take (exNaN.num_data_ + 1) ∧
          t.data_ = exLookup.data_.take (exLookup.row_ptr_.getD exNaN.num_data_ 0) ∧
          ∀ r, r < exNaN.num_data_ → rowSlice t r = rowSlice exLookup r :=
  LoadFromMemory_mismatch_accepted 4 1 exLookup exNaN (by decide) (by decide) (by decide)
    (by decide) (by decide) (by decide)

/-! ### Split and the row iterator -/

theorem routeZeroNone_None_found (min_bin default_bin most_freq_bin threshold : Nat)
    (default_left : Bool) (v : Nat) (h1 : min_bin ≤ v) (hoff : most_freq_bin = 0 → 1 ≤ min_bin) :
    routeZeroNone min_bin default_bin most_freq_bin threshold MissingType.None default_left v
      = decide (v - min_bin + (if most_freq_bin = 0 then 1 else 0) ≤ threshold) := by
  have hz : decide (MissingType.None = MissingType.Zero) = false := by decide
  have hnz : decide (MissingType.None ≠ MissingType.Zero) = true := by decide
  by_cases h0 : most_freq_bin = 0
  · have hm := hoff h0
    subst h0
    simp only [routeZeroNone, if_true, hz, hnz, Bool.and_false, Bool.false_or,
      Bool.and_true, Nat.add_zero]
    by_cases hdm : default_bin = 0
    · subst hdm
      simp only [if_true]
      have hv : ¬ v = min_bin - 1 := by omega
      simp only [hv, if_false, decide_eq_decide]
      omega
    · simp only [hdm, if_false]
      by_cases hvd : v = min_bin + default_bin - 1
      · simp only [hvd, if_true, decide_eq_decide]
        omega
      · have hv : ¬ v = min_bin - 1 := by omega
        simp only [hvd, hv, if_false, decide_eq_decide]
        omega
  · simp only [routeZeroNone, h0, if_false, hz, hnz, Bool.and_false, Bool.false_or,
      Bool.and_true, Nat.sub_zero, Nat.add_zero]
    by_cases hdm : default_bin = most_freq_bin
    · simp only [hdm, if_true]
      by_cases hv : v = min_bin + most_freq_bin
      · simp only [hv, if_true, decide_eq_decide]
        omega
      · simp only [hv, if_false, decide_eq_decide]
        omega
    · simp only [hdm, if_false]
      by_cases hvd : v = min_bin + default_bin
      · simp only [hvd, if_true, decide_eq_decide]
        omega
      · by_cases hv : v = min_bin + most_freq_bin
        · simp only [hvd, hv, if_true, if_false, decide_eq_decide]
          have : ¬ (min_bin + most_freq_bin = min_bin + default_bin) := by omega
          simp only [this, if_false, if_true, decide_eq_decide]
          omega
        · simp only [hvd, hv, if_false, decide_eq_decide]
          omega

theorem routeZeroNone_None_default (min_bin default_bin most_freq_bin threshold : Nat)
    (default_left : Bool) (hoff : most_freq_bin = 0 → 1 ≤ min_bin) :
    routeZeroNone min_bin default_bin most_freq_bin threshold MissingType.None default_left
        (min_bin + most_freq_bin - (if most_freq_bin = 0 then 1 else 0))
      = decide (most_freq_bin ≤ threshold) := by
  have hz : decide (MissingType.None = MissingType.Zero) = false := by decide
  have hnz : decide (MissingType.None ≠ MissingType.Zero) = true := by decide
  simp only [routeZeroNone, hz, hnz, Bool.and_false, Bool.false_or,
    Bool.and_true, if_true]
  by_cases hdm : default_bin = most_freq_bin
  · simp only [hdm, if_true]
  · simp only [hdm, if_false]
    have hne2 : ¬ (min_bin + most_freq_bin - (if most_freq_bin = 0 then 1 else 0)
        = min_bin + default_bin - (if most_freq_bin = 0 then 1 else 0)) := by
      by_cases h0 : most_freq_bin = 0
      · have := hoff h0
        simp only [h0, if_true]
        omega
      · simp only [h0, if_false]
        omega
    simp only [hne2, if_false]

/-- On a valid row the None-missing rule applied to the lookup of `Split`
decides as thresholding the iterator value does. -/
theorem route_None_eq_iterator (vb : Nat) (s : MultiValDenseBin) (hwf : OffsetsWF s)
    (hsorted : RowsSorted s)
    (hsize : s.data_.length < 2 ^ 30) (min_bin max_bin default_bin most_freq_bin threshold : Nat)
    (default_left : Bool) (hmax : max_bin < 256 ^ vb) (hmf : min_bin + most_freq_bin < 256 ^ vb)
    (hoff : most_freq_bin = 0 → 1 ≤ min_bin) (r : Nat) (hr : r < s.num_data_) :
    ∃ g, (GetIterator vb s min_bin max_bin most_freq_bin).Get vb r = some g ∧
      routeZeroNone min_bin default_bin most_freq_bin threshold MissingType.None default_left
        (lookupVal s r min_bin max_bin
          (min_bin + most_freq_bin - (if most_freq_bin = 0 then 1 else 0)))
        = decide (g ≤ threshold) := by
  obtain ⟨g, hg, hgs⟩ := Iterator_Get_spec vb s hwf hsorted hsize min_bin max_bin most_freq_bin
    (by omega) hmax (by omega) r hr
  obtain ⟨v, hv, hvs⟩ := GetRawBin_spec s hwf hsorted hsize r hr min_bin max_bin
    (min_bin + most_freq_bin - (if most_freq_bin = 0 then 1 else 0))
  have hlv : lookupVal s r min_bin max_bin
      (min_bin + most_freq_bin - (if most_freq_bin = 0 then 1 else 0)) = v := by
    simp [lookupVal, hv]
  refine ⟨g, hg, ?_⟩
  rw [hlv]
  rcases hgs with ⟨x, hx, hx1, hx2, hxl, hgx⟩ | ⟨hnone, hgd⟩
  · rcases hvs with ⟨hvm, hv1, hv2, hvl⟩ | ⟨hnone2, _⟩
    · have hxv : x = v := Nat.le_antisymm (hxl v hvm hv1 hv2) (hvl x hx hx1 hx2)
      subst hxv
      have hfit : x - min_bin + (if most_freq_bin = 0 then 1 else 0) < 256 ^ vb := by
        by_cases h0 : most_freq_bin = 0
        · have := hoff h0
          simp only [h0, if_true]
          omega
        · simp only [h0, if_false]
          omega
      rw [hgx, castValInt_of_fit vb x min_bin _ hx1 hfit]
      exact routeZeroNone_None_found min_bin default_bin most_freq_bin threshold default_left x
        hx1 hoff
    · exact absurd ⟨hx1, hx2⟩ (hnone2 x hx)
  · rcases hvs with ⟨hvm, hv1, hv2, _⟩ | ⟨_, hvd⟩
    · exact absurd ⟨hv1, hv2⟩ (hnone v hvm)
    · rw [hvd, hgd]
      exact routeZeroNone_None_default min_bin default_bin most_freq_bin threshold default_left
        hoff

/-- C18. `Split` with missing type `None` agrees with thresholding the row
iterator: on a finalized store of fewer than `2 ^ 30` values (the lookups
stay inside `data_size_t`), for `min_bin ≤ max_bin`, with
`min_bin + threshold`, `min_bin + default_bin`, `min_bin + most_freq_bin` and
`max_bin` fitting `VAL_T` and `min_bin ≥ 1` whenever `most_freq_bin = 0`, for
either `default_left`, the iterator `GetIterator(min_bin, max_bin,
most_freq_bin)` returns on every row of `data_indices`, and `Split` writes to
`lte_indices` exactly the rows `idx` with `Get(idx) ≤ threshold`, in input
order, and the other rows to `gt_indices`. -/
theorem Split_None_agrees_with_iterator (vb : Nat) (hvb : vb ≤ 4) (s : MultiValDenseBin)
    (hwf : OffsetsWF s) (hsorted : RowsSorted s)
    (hsize : s.data_.length < 2 ^ 30)
    (min_bin max_bin default_bin most_freq_bin threshold : Nat) (default_left : Bool)
    (data_indices : Nat → Nat) (num_data : Int) (hn : 0 < num_data)
    (hvalid : ∀ i, i < num_data.toNat → data_indices i < s.num_data_) (lte gt : Nat → Nat)
    (_hwin : min_bin ≤ max_bin) (hth : min_bin + threshold < 256 ^ vb)
    (hdf : min_bin + default_bin < 256 ^ vb) (hmf : min_bin + most_freq_bin < 256 ^ vb)
    (hmax : max_bin < 256 ^ vb) (hoff : most_freq_bin = 0 → 1 ≤ min_bin) :
    ∃ st, Split vb s min_bin max_bin default_bin most_freq_bin MissingType.None default_left
        threshold data_indices num_data lte gt = some st ∧
      (∀ i, i < num_data.toNat → ∃ g,
        (GetIterator vb s min_bin max_bin most_freq_bin).Get vb (data_indices i) = some g) ∧
      firstN st.lte_indices st.lte_count = (firstN data_indices num_data.toNat).filter
        (fun idx => decide
          (((GetIterator vb s min_bin max_bin most_freq_bin).Get vb idx).getD 0 ≤ threshold)) ∧
      firstN st.gt_indices st.gt_count = (firstN data_indices num_data.toNat).filter
        (fun idx => !decide
          (((GetIterator vb s min_bin max_bin most_freq_bin).Get vb idx).getD 0
            ≤ threshold)) := by
  obtain ⟨st, h, hl, hg, _⟩ := Split_run vb s hwf hsorted hsize min_bin max_bin default_bin
    most_freq_bin MissingType.None default_left threshold data_indices num_data hn hvalid lte gt
  have e2 := shiftedBin_eq vb hvb min_bin most_freq_bin most_freq_bin hmf hoff
  have hside := splitSide_ZeroNone vb hvb min_bin max_bin default_bin most_freq_bin
    MissingType.None (by decide) default_left threshold (by omega) hmf hdf hoff
  simp only [hside, e2, castVal_of_lt vb max_bin hmax,
    castVal_of_lt vb min_bin (by omega)] at hl hg
  have hagree : ∀ idx ∈ firstN data_indices num_data.toNat,
      routeZeroNone min_bin default_bin most_freq_bin threshold MissingType.None default_left
        (lookupVal s idx min_bin max_bin
          (min_bin + most_freq_bin - (if most_freq_bin = 0 then 1 else 0)))
      = decide (((GetIterator vb s min_bin max_bin most_freq_bin).Get vb idx).getD 0
          ≤ threshold) := by
    intro idx hidx
    simp only [firstN, List.mem_map, List.mem_range] at hidx
    obtain ⟨i, hi, rfl⟩ := hidx
    obtain ⟨g, hg1, hg2⟩ := route_None_eq_iterator vb s hwf hsorted hsize min_bin max_bin default_bin
      most_freq_bin threshold default_left hmax hmf hoff _ (hvalid i hi)
    rw [hg2, hg1]
    rfl
  have hagree2 : ∀ idx ∈ firstN data_indices num_data.toNat,
      (!routeZeroNone min_bin default_bin most_freq_bin threshold MissingType.None default_left
        (lookupVal s idx min_bin max_bin
          (min_bin + most_freq_bin - (if most_freq_bin = 0 then 1 else 0))))
      = !decide (((GetIterator vb s min_bin max_bin most_freq_bin).Get vb idx).getD 0
          ≤ threshold) := by
    intro idx hidx
    rw [hagree idx hidx]
  refine ⟨st, h, ?_, ?_, ?_⟩
  · intro i hi
    obtain ⟨g, hg1, _⟩ := route_None_eq_iterator vb s hwf hsorted hsize min_bin max_bin default_bin
      most_freq_bin threshold default_left hmax hmf hoff _ (hvalid i hi)
    exact ⟨g, hg1⟩
  · rw [hl]; exact List.filter_congr hagree
  · rw [hg]; exact List.filter_congr hagree2

theorem Split_None_agrees_with_iterator_witness :
    ∃ st, Split 1 exLookup 1 10 2 0 MissingType.None true 2 (fun i => i) 2 (fun _ => 7)
        (fun _ => 7) = some st ∧
      (GetIterator 1 exLookup 1 10 0).Get 1 0 = some 1 ∧
      (GetIterator 1 exLookup 1 10 0).Get 1 1 = some 3 ∧
      firstN st.lte_indices st.lte_count = [0] ∧ firstN st.gt_indices st.gt_count = [1] := by
  obtain ⟨st, h, _, hl, hg⟩ := Split_None_agrees_with_iterator 1 (by decide) exLookup
    (by decide) (by decide) (by decide) 1 10 2 0 2 true (fun i => i) 2 (by decide) (fun i hi => hi)
    (fun _ => 7) (fun _ => 7) (by decide) (by decide) (by decide) (by decide) (by decide)
    (by decide)
  refine ⟨st, h, by decide, by decide, ?_, ?_⟩
  · rw [hl]; decide
  · rw [hg]; decide

/-! ### Stable partition -/

/-- C19. `Split` is a stable partition: on a finalized store of fewer than
`2 ^ 30` values (the lookups stay inside `data_size_t`), with
`num_data > 0` and valid rows, for every call of `Split` and of
`SplitCategorical` the written part of `lte_indices` is the subsequence of
`data_indices[0..num_data)` of the rows that the loop body routes left (the
rows whose lookup is put on the `lte` side) and the written part of
`gt_indices` the subsequence of the rows routed right, both in the relative
order of `data_indices`. -/
theorem Split_stable_partition (vb : Nat) (s : MultiValDenseBin) (hwf : OffsetsWF s)
    (hsorted : RowsSorted s)
    (hsize : s.data_.length < 2 ^ 30)
    (data_indices : Nat → Nat) (num_data : Int) (hn : 0 < num_data)
    (hvalid : ∀ i, i < num_data.toNat → data_indices i < s.num_data_) (lte gt : Nat → Nat) :
    (∀ min_bin max_bin default_bin most_freq_bin missing_type default_left threshold,
      ∃ st, Split vb s min_bin max_bin default_bin most_freq_bin missing_type default_left
          threshold data_indices num_data lte gt = some st ∧
        firstN st.lte_indices st.lte_count = (firstN data_indices num_data.toNat).filter
          (fun idx => decide (splitSide vb min_bin max_bin default_bin most_freq_bin
            missing_type default_left threshold (lookupVal s idx (castVal vb min_bin)
              (castVal vb max_bin) (shiftedBin vb min_bin most_freq_bin most_freq_bin))
            = Side.lte)) ∧
        firstN st.gt_indices st.gt_count = (firstN data_indices num_data.toNat).filter
          (fun idx => decide (splitSide vb min_bin max_bin default_bin most_freq_bin
            missing_type default_left threshold (lookupVal s idx (castVal vb min_bin)
              (castVal vb max_bin) (shiftedBin vb min_bin most_freq_bin most_freq_bin))
            = Side.gt)) ∧
        (firstN st.lte_indices st.lte_count).Sublist (firstN data_indices num_data.toNat) ∧
        (firstN st.gt_indices st.gt_count).Sublist (firstN data_indices num_data.toNat)) ∧
    (∀ min_bin max_bin most_freq_bin threshold num_threahold,
      ∃ st, SplitCategorical vb s min_bin max_bin most_freq_bin threshold num_threahold
          data_indices num_data lte gt = some st ∧
        firstN st.lte_indices st.lte_count = (firstN data_indices num_data.toNat).filter
          (fun idx => decide (splitCategoricalSide min_bin most_freq_bin threshold
            num_threahold (lookupVal s idx (castVal vb min_bin) (castVal vb max_bin)
              (castVal vb most_freq_bin)) = Side.lte)) ∧
        firstN st.gt_indices st.gt_count = (firstN data_indices num_data.toNat).filter
          (fun idx => decide (splitCategoricalSide min_bin most_freq_bin threshold
            num_threahold (lookupVal s idx (castVal vb min_bin) (castVal vb max_bin)
              (castVal vb most_freq_bin)) = Side.gt)) ∧
        (firstN st.lte_indices st.lte_count).Sublist (firstN data_indices num_data.toNat) ∧
        (firstN st.gt_indices st.gt_count).Sublist (firstN data_indices num_data.toNat)) := by
  have hside : ∀ sd : Side, (!decide (sd = Side.lte)) = decide (sd = Side.gt) := by
    intro sd; cases sd <;> rfl
  constructor
  · intro min_bin max_bin default_bin most_freq_bin missing_type default_left threshold
    obtain ⟨st, h, hl, hg, _⟩ := Split_run vb s hwf hsorted hsize min_bin max_bin default_bin
      most_freq_bin missing_type default_left threshold data_indices num_data hn hvalid lte gt
    simp only [hside] at hg
    refine ⟨st, h, hl, hg, ?_, ?_⟩
    · rw [hl]; exact List.filter_sublist _
    · rw [hg]; exact List.filter_sublist _
  · intro min_bin max_bin most_freq_bin threshold num_threahold
    obtain ⟨st, h, hl, hg, _⟩ := SplitCategorical_run vb s hwf hsorted hsize min_bin max_bin
      most_freq_bin threshold num_threahold data_indices num_data hn hvalid lte gt
    simp only [hside] at hg
    refine ⟨st, h, hl, hg, ?_, ?_⟩
    · rw [hl]; exact List.filter_sublist _
    · rw [hg]; exact List.filter_sublist _

theorem Split_stable_partition_witness :
    (∃ st, Split 1 exLookup 1 10 0 4 MissingType.Zero false 3 (fun i => i % 2) 4
        (fun _ => 0) (fun _ => 0) = some st ∧
      firstN st.lte_indices st.lte_count = [1, 1] ∧
      firstN st.gt_indices st.gt_count = [0, 0]) ∧
    (∃ st, SplitCategorical 1 exLookup 1 10 4 exBits 1 (fun i => i % 2) 4
        (fun _ => 0) (fun _ => 0) = some st ∧
      firstN st.lte_indices st.lte_count = [1, 1] ∧
      firstN st.gt_indices st.gt_count = [0, 0]) := by
  have h := Split_stable_partition 1 exLookup (by decide) (by decide) (by decide) (fun i => i % 2) 4
    (by decide) (fun i _ => by show i % 2 < 2; omega) (fun _ => 0) (fun _ => 0)
  obtain ⟨st1, h1, hl1, hg1, _, _⟩ := h.1 1 10 0 4 MissingType.Zero false 3
  obtain ⟨st2, h2, hl2, hg2, _, _⟩ := h.2 1 10 4 exBits 1
  refine ⟨⟨st1, h1, ?_, ?_⟩, ⟨st2, h2, ?_, ?_⟩⟩
  · rw [hl1]; decide
  · rw [hg1]; decide
  · rw [hl2]; decide
  · rw [hg2]; decide

/-! ### Clone -/

/-- C20. Clone preserves the store, at the store `exNaN`: the copy
constructor behind `Clone` copies `num_data_` and `data_` and leaves
`row_ptr_` empty, for every store; so the clone of the finalized one-row
store `exNaN` has other offsets than `exNaN`, and `GetRawBin` on a clone reads
`row_ptr_[idx]` outside the vector (no value) where the original returns
`10`. -/
theorem Clone_drops_row_ptr :
    (∀ s : MultiValDenseBin, (Clone s).num_data_ = s.num_data_ ∧ (Clone s).data_ = s.data_ ∧
      (Clone s).row_ptr_ = []) ∧
    (∀ (s : MultiValDenseBin) (idx min_bin max_bin d : Nat),
      GetRawBin (Clone s) idx min_bin max_bin d = none) ∧
    OffsetsWF exNaN ∧ RowsSorted exNaN ∧
    (Clone exNaN).row_ptr_ ≠ exNaN.row_ptr_ ∧
    GetRawBin exNaN 0 1 10 0 = some 10 ∧
    GetRawBin (Clone exNaN) 0 1 10 0 = none := by
  refine ⟨fun s => ⟨rfl, rfl, rfl⟩, ?_, by decide, by decide, by decide, by decide, by decide⟩
  intro s idx min_bin max_bin d
  simp [GetRawBin, RowPtr, Clone, MultiValDenseBin.copyCtor]

end LightGBM
